import Mathlib

/-!
Verification of the canonical UI-tree model, skeleton fingerprinting,
screen resolution, and the element-resolution engine of the code_executor
repository (src/kernel/utils.py, src/kernel/api_doc.py, src/kernel/ui_apis.py).

The Python code is shallowly embedded: dictionaries become association
lists (lookup-based, insertion order kept where the code relies on it),
Python sets become `Finset Nat`, and the BFS loops that the source runs
on a mutable queue are given an explicit fuel argument (the source loops
forever on cyclic inputs; theorems are stated under the hypothesis that
the traversal completed, written `= some _`).
-/

namespace CodeExec

/-- Lookup of the first binding of a key in an association list.
Python dictionaries have unique keys, so for maps received as input
(`ele_attrs`) this is exactly `dict.get`. -/
def lookupFirst (l : List (Nat × α)) (k : Nat) : Option α :=
  match l with
  | [] => none
  | p :: ps => if p.1 = k then some p.2 else lookupFirst ps k

/-- Lookup of the last binding of a key: the semantics of a Python dict
that was built by successive insertions where later keys overwrite
earlier ones (used for `idx_map` in `_build_tree`). -/
def lookupLast (l : List (Nat × α)) (k : Nat) : Option α :=
  lookupFirst l.reverse k

/-- String-keyed first lookup (for catalog dictionaries). -/
def lookupFirstS (l : List (String × α)) (k : String) : Option α :=
  match l with
  | [] => none
  | p :: ps => if p.1 = k then some p.2 else lookupFirstS ps k

/-- String-keyed last lookup: Python dict built with overwrites. -/
def lookupLastS (l : List (String × α)) (k : String) : Option α :=
  lookupFirstS l.reverse k

/-- Per-node element record: the `EleAttr` fields the tree algorithms
read.  `id` is the mutable id field (initially equal to the map key,
rewritten by `_build_tree`); `children` are child ids; `scrollable`
mirrors `ele.ele.is_scrollable`; `ty` mirrors `type_` (used to
synthesize locators for discovered elements); `text` is the retained
content payload (identifies a node independently of its id).
`extract_subtree` feeds already-built records back into the
constructor, so raw and built elements share this one type. -/
structure Ele where
  id : Nat
  children : List Nat
  scrollable : Bool
  ty : String
  text : String
deriving Repr, DecidableEq

/-- The id→attributes map handed to `ElementTree.__init__`. -/
abbrev RawMap := List (Nat × Ele)

/-- Shape tree produced by the BFS pass of `_build_tree`: ids plus child
order.  (The Python `node` objects also carry a parent pointer and the
`leaves` set; leaves are modelled separately by `annotate`.) -/
inductive BTree where
  | node (id : Nat) (children : List BTree)

/-- Root id of a shape tree. -/
def BTree.rootId : BTree → Nat
  | .node i _ => i

/-- Child list of a shape tree. -/
def BTree.childList : BTree → List BTree
  | .node _ cs => cs

mutual
/-- Decidable equality for `BTree` (hand-rolled: nested inductive). -/
def BTree.beq : BTree → BTree → Bool
  | .node i cs, .node j ds => i == j && BTree.beqList cs ds
/-- Decidable equality for lists of `BTree`. -/
def BTree.beqList : List BTree → List BTree → Bool
  | [], [] => true
  | t :: ts, u :: us => BTree.beq t u && BTree.beqList ts us
  | _, _ => false
end

mutual
def BTree.beqIff : ∀ a b : BTree, BTree.beq a b = true ↔ a = b
  | .node i cs, .node j ds => by
    simp only [BTree.beq, Bool.and_eq_true, beq_iff_eq]
    constructor
    · rintro ⟨rfl, h⟩
      have := (BTree.beqListIff cs ds).1 h
      simp [this]
    · rintro h
      injection h with h1 h2
      exact ⟨h1, (BTree.beqListIff cs ds).2 h2⟩
def BTree.beqListIff : ∀ a b : List BTree, BTree.beqList a b = true ↔ a = b
  | [], [] => by simp [BTree.beqList]
  | [], _ :: _ => by simp [BTree.beqList]
  | _ :: _, [] => by simp [BTree.beqList]
  | t :: ts, u :: us => by
    simp only [BTree.beqList, Bool.and_eq_true]
    constructor
    · rintro ⟨h1, h2⟩
      have e1 := (BTree.beqIff t u).1 h1
      have e2 := (BTree.beqListIff ts us).1 h2
      simp [e1, e2]
    · rintro h
      injection h with h1 h2
      exact ⟨(BTree.beqIff t u).2 h1, (BTree.beqListIff ts us).2 h2⟩
end

instance : DecidableEq BTree := fun a b =>
  decidable_of_iff (BTree.beq a b = true) (BTree.beqIff a b)

/-- BFS shape construction of `_build_tree` (lines 445–457 of
src/kernel/utils.py): start from the root id, look each node up in the
raw map, and attach a child node for every child id present in the map,
silently skipping absent child ids.  The child node's id is read from
the element's `id` field (`idx = ele_map[child_id].id`).  The root id
itself must be present (`ele_map[node.id]` raises otherwise).  `fuel`
bounds the recursion depth; the Python loop simply never terminates on
cyclic input. -/
def buildShape (m : RawMap) : Nat → Nat → Option BTree
  | 0, _ => none
  | fuel + 1, i =>
    match lookupFirst m i with
    | none => none
    | some e =>
      (((e.children.filterMap (fun c => lookupFirst m c)).map Ele.id).mapM
        (buildShape m fuel)).map (BTree.node i)

mutual
/-- DFS pre-order ids of a shape tree: the `dfs_order` / `valid_node_ids`
lists of `_build_tree` (stack with reversed children = pre-order). -/
def preorder : BTree → List Nat
  | .node i cs => i :: preorderList cs
/-- Pre-order ids of a forest, left to right. -/
def preorderList : List BTree → List Nat
  | [] => []
  | t :: ts => preorder t ++ preorderList ts
end

mutual
/-- Relabel every id of a shape tree through a finite map, failing if
some id is missing (the Python `idx_map[...]` raises `KeyError` then). -/
def relabel (f : Nat → Option Nat) : BTree → Option BTree
  | .node i cs =>
    match f i, relabelList f cs with
    | some j, some ds => some (.node j ds)
    | _, _ => none
/-- Relabel a forest. -/
def relabelList (f : Nat → Option Nat) : List BTree → Option (List BTree)
  | [] => some []
  | t :: ts =>
    match relabel f t, relabelList f ts with
    | some u, some us => some (u :: us)
    | _, _ => none
end

mutual
/-- Leaf set computed by `node.get_leaves` (utils.py lines 422–429): for
each child, add the child id when the child has no children, otherwise
union the child's recursively computed leaf set.  A childless node's own
leaf set stays empty. -/
def childLeaves : List BTree → Finset Nat
  | [] => ∅
  | .node ci [] :: ts => insert ci (childLeaves ts)
  | .node ci (c :: cs) :: ts => nodeLeaves (.node ci (c :: cs)) ∪ childLeaves ts
/-- Leaf set of a single node, per `get_leaves`. -/
def nodeLeaves : BTree → Finset Nat
  | .node _ cs => childLeaves cs
end

/-- Tree node annotated with its `leaves` set, the state on which
`drop_invalid_nodes` operates. -/
inductive LNode where
  | node (id : Nat) (leaves : Finset Nat) (children : List LNode)

/-- Id of an annotated node. -/
def LNode.nid : LNode → Nat
  | .node i _ _ => i

/-- Leaves of an annotated node. -/
def LNode.lv : LNode → Finset Nat
  | .node _ l _ => l

/-- Children of an annotated node. -/
def LNode.ch : LNode → List LNode
  | .node _ _ cs => cs

mutual
/-- Decidable equality for `LNode` (hand-rolled: nested inductive). -/
def LNode.beq : LNode → LNode → Bool
  | .node i l cs, .node j m ds => i == j && decide (l = m) && LNode.beqList cs ds
/-- Decidable equality for lists of `LNode`. -/
def LNode.beqList : List LNode → List LNode → Bool
  | [], [] => true
  | t :: ts, u :: us => LNode.beq t u && LNode.beqList ts us
  | _, _ => false
end

mutual
def LNode.beqIff : ∀ a b : LNode, LNode.beq a b = true ↔ a = b
  | .node i l cs, .node j m ds => by
    simp only [LNode.beq, Bool.and_eq_true, beq_iff_eq, decide_eq_true_eq]
    constructor
    · rintro ⟨⟨rfl, rfl⟩, h⟩
      have := (LNode.beqListIff cs ds).1 h
      simp [this]
    · rintro h
      injection h with h1 h2 h3
      exact ⟨⟨h1, h2⟩, (LNode.beqListIff cs ds).2 h3⟩
def LNode.beqListIff : ∀ a b : List LNode, LNode.beqList a b = true ↔ a = b
  | [], [] => by simp [LNode.beqList]
  | [], _ :: _ => by simp [LNode.beqList]
  | _ :: _, [] => by simp [LNode.beqList]
  | t :: ts, u :: us => by
    simp only [LNode.beqList, Bool.and_eq_true]
    constructor
    · rintro ⟨h1, h2⟩
      have e1 := (LNode.beqIff t u).1 h1
      have e2 := (LNode.beqListIff ts us).1 h2
      simp [e1, e2]
    · rintro h
      injection h with h1 h2
      exact ⟨(LNode.beqIff t u).2 h1, (LNode.beqListIff ts us).2 h2⟩
end

instance : DecidableEq LNode := fun a b =>
  decidable_of_iff (LNode.beq a b = true) (LNode.beqIff a b)

mutual
/-- Annotate every node with the leaf set `get_leaves` computes for it. -/
def annotate : BTree → LNode
  | .node i cs => .node i (childLeaves cs) (annotateList cs)
/-- Annotate a forest. -/
def annotateList : List BTree → List LNode
  | [] => []
  | t :: ts => annotate t :: annotateList ts
end

mutual
/-- Pruning pass `node.drop_invalid_nodes` (utils.py lines 431–440):
intersect the node's leaf set with the valid ids; when non-empty, keep
that intersection and recurse into the children; when empty, clear both
the children and the leaf set (the node object itself stays wherever its
parent references it). -/
def dropInvalid (v : Finset Nat) : LNode → LNode
  | .node i lv cs =>
    if lv ∩ v = ∅ then .node i ∅ []
    else .node i (lv ∩ v) (dropList v cs)
/-- Pruning over a child list. -/
def dropList (v : Finset Nat) : List LNode → List LNode
  | [] => []
  | t :: ts => dropInvalid v t :: dropList v ts
end

mutual
/-- All nodes of an annotated tree (the tree itself and every
descendant). -/
def nodesL : LNode → List LNode
  | .node i lv cs => .node i lv cs :: nodesLList cs
/-- All nodes of a forest. -/
def nodesLList : List LNode → List LNode
  | [] => []
  | t :: ts => nodesL t ++ nodesLList ts
end

/-- One step of the `for idx, node in zip(valid_node_ids, dfs_order)`
rewrite loop (utils.py lines 476–483): fetch the raw element of the
original id, overwrite its id with the new id, and remap every child id
through `idx_map` (a missing child id raises `KeyError`: `none` here). -/
def remapOne (m : RawMap) (ix : Nat → Option Nat) (p : Nat × Nat) :
    Option (Nat × Ele) :=
  match lookupFirst m p.1 with
  | none => none
  | some e =>
    (e.children.mapM ix).map fun cs =>
      (p.2, { id := p.2, children := cs, scrollable := e.scrollable,
              ty := e.ty, text := e.text })

/-- The finished tree: the fields of `ElementTree` that the claims are
about.  `idxPairs` is the `idx_map` association (original id, new id)
that `_build_tree` computes. -/
structure BuiltTree where
  root : LNode
  eleMap : List (Nat × Ele)
  valid : Finset Nat
  scrollableIds : Finset Nat
  idxPairs : List (Nat × Nat)
deriving DecidableEq

/-- `ElementTree._build_tree` (utils.py lines 442–497): BFS the shape
from the root, take the DFS pre-order, sort the reachable original ids
ascending, assign the k-th smallest id to the node at DFS position k
(`idx_map = {node.id: idx for idx, node in zip(valid_node_ids, dfs_order)}`),
rewrite every element and the valid-id set through that map, collect
scrollable ids, compute leaf sets bottom-up and prune against the valid
set.  The Python `_valid_ele_ids` set also receives `None` for valid ids
that are unreachable (`idx_map.get(idx, None)`); that inert element is
dropped here (`filterMap`), it participates in no later operation. -/
def srtOf (sh : BTree) : List Nat :=
  (preorder sh).insertionSort (· ≤ ·)

/-- The `idx_map` association list:
`zip(valid_node_ids, dfs_order)` pairs the k-th smallest reachable
original id with the node at DFS position k, and the dict comprehension
keys it by the node's original id — so the pairs are
(original id at DFS position k, k-th smallest id). -/
def pairsOf (sh : BTree) : List (Nat × Nat) :=
  (preorder sh).zip (srtOf sh)

/-- Lookup in `idx_map` (dict semantics: last binding wins). -/
def ixOf (sh : BTree) (k : Nat) : Option Nat :=
  lookupLast (pairsOf sh) k

/-- The rewritten valid-id set
(`set(idx_map.get(idx, None) for idx in valid_ele_ids)`; the inert
`None` member is dropped). -/
def validOf (sh : BTree) (validIds : List Nat) : Finset Nat :=
  (validIds.filterMap (ixOf sh)).toFinset

def buildTree (fuel : Nat) (m : RawMap) (validIds : List Nat) (rootId : Nat) :
    Option BuiltTree :=
  match buildShape m fuel rootId with
  | none => none
  | some sh =>
    match (pairsOf sh).mapM (remapOne m (ixOf sh)) with
    | none => none
    | some emap =>
      match relabel (ixOf sh) sh with
      | none => none
      | some rsh =>
        some { root := dropInvalid (validOf sh validIds) (annotate rsh),
               eleMap := emap,
               valid := validOf sh validIds,
               scrollableIds :=
                 ((emap.filter (fun p => p.2.scrollable)).map (·.1)).toFinset ∩
                   validOf sh validIds,
               idxPairs := pairsOf sh }

/-- The BFS queue of `extract_subtree` (utils.py lines 755–764): pop the
front, skip ids absent from the map, record present ids in visit order,
enqueue their children.  Fuel bounds the number of pops. -/
def collectReachable (emap : List (Nat × Ele)) :
    Nat → List Nat → List Nat → Option (List Nat)
  | 0, que, acc => if que = [] then some acc else none
  | _ + 1, [], acc => some acc
  | fuel + 1, i :: que, acc =>
    match lookupFirst emap i with
    | none => collectReachable emap fuel que acc
    | some e => collectReachable emap fuel (que ++ e.children) (acc ++ [i])

/-- `ElementTree.extract_subtree` (utils.py lines 750–767): require the
id to be present, BFS-collect every id reachable through children,
restrict the element map to those ids, intersect the valid-id set, and
run the full tree construction again rooted at the id. -/
def extractSubtree (fuel : Nat) (t : BuiltTree) (eleId : Nat) :
    Option BuiltTree :=
  match lookupFirst t.eleMap eleId with
  | none => none
  | some _ =>
    match collectReachable t.eleMap fuel [eleId] [] with
    | none => none
    | some keys =>
      let sub := keys.dedup.filterMap
        (fun k => (lookupFirst t.eleMap k).map (fun e => (k, e)))
      let validL := keys.dedup.filter (fun k => k ∈ t.valid)
      buildTree fuel sub validL eleId

/-! HTML skeleton model (`HTMLSkeleton`, utils.py lines 902–1005).
An HTML tree is a tag node (name, attribute list, contents) or a text
node; `BeautifulSoup` parses the serialized tree into this form. -/

/-- HTML node: tag with attributes and contents, or a text node. -/
inductive HNode where
  | txt (s : String)
  | tag (name : String) (attrs : List (String × String)) (children : List HNode)

mutual
/-- Decidable equality for `HNode` (hand-rolled: nested inductive).
bs4 `Tag.__eq__` compares name, attributes and contents recursively,
which coincides with structural equality of this model. -/
def HNode.beq : HNode → HNode → Bool
  | .txt s, .txt u => s == u
  | .tag n1 a1 cs1, .tag n2 a2 cs2 =>
    n1 == n2 && a1 == a2 && HNode.beqList cs1 cs2
  | _, _ => false
/-- Equality on `HNode` lists. -/
def HNode.beqList : List HNode → List HNode → Bool
  | [], [] => true
  | t :: ts, u :: us => HNode.beq t u && HNode.beqList ts us
  | _, _ => false
end

mutual
def HNode.beqIff : ∀ a b : HNode, HNode.beq a b = true ↔ a = b
  | .txt s, .txt u => by simp [HNode.beq]
  | .txt _, .tag _ _ _ => by simp [HNode.beq]
  | .tag _ _ _, .txt _ => by simp [HNode.beq]
  | .tag n1 a1 cs1, .tag n2 a2 cs2 => by
    simp only [HNode.beq, Bool.and_eq_true, beq_iff_eq]
    constructor
    · rintro ⟨⟨rfl, rfl⟩, h⟩
      have := (HNode.beqListIff cs1 cs2).1 h
      simp [this]
    · rintro h
      injection h with h1 h2 h3
      exact ⟨⟨h1, h2⟩, (HNode.beqListIff cs1 cs2).2 h3⟩
def HNode.beqListIff : ∀ a b : List HNode, HNode.beqList a b = true ↔ a = b
  | [], [] => by simp [HNode.beqList]
  | [], _ :: _ => by simp [HNode.beqList]
  | _ :: _, [] => by simp [HNode.beqList]
  | t :: ts, u :: us => by
    simp only [HNode.beqList, Bool.and_eq_true]
    constructor
    · rintro ⟨h1, h2⟩
      have e1 := (HNode.beqIff t u).1 h1
      have e2 := (HNode.beqListIff ts us).1 h2
      simp [e1, e2]
    · rintro h
      injection h with h1 h2
      exact ⟨(HNode.beqIff t u).2 h1, (HNode.beqListIff ts us).2 h2⟩
end

instance : DecidableEq HNode := fun a b =>
  decidable_of_iff (HNode.beq a b = true) (HNode.beqIff a b)

/-- Whether an HTML node is a tag (what `find_all(True)` and
`find_all(recursive=False)` see). -/
def isTag : HNode → Bool
  | .tag _ _ _ => true
  | .txt _ => false

/-- First tag of a content list together with the remaining contents:
the stepping of `find_all(recursive=False)`, which is blind to text
nodes. -/
def nextTag : List HNode → Option (HNode × List HNode)
  | [] => none
  | .txt _ :: ts => nextTag ts
  | .tag n a cs :: ts => some (.tag n a cs, ts)

/-- Total order used to model `sorted(child.attrs.items())`
(lexicographic on the pair). -/
def attrLe (p q : String × String) : Prop :=
  p.1 < q.1 ∨ (p.1 = q.1 ∧ p.2 ≤ q.2)

instance : DecidableRel attrLe := fun p q =>
  inferInstanceAs (Decidable (_ ∨ _))

/-- Sorted attribute items: `tuple(sorted(child.attrs.items()))`
(insertion sort is stable and total, as Python's `sorted`). -/
def sortedAttrs (a : List (String × String)) : List (String × String) :=
  a.insertionSort attrLe

/-- Shallow structural signature of a sibling used by
`_clean_repeated_siblings`:
`(child.name, tuple(sorted(child.attrs.items())))` — the subtree below
the child does not participate.  Text nodes have no signature. -/
def sigOf : HNode → Option (String × List (String × String))
  | .txt _ => none
  | .tag n a _ => some (n, sortedAttrs a)

mutual
/-- `HTMLSkeleton._remove_attributes` (utils.py lines 916–932): for every
tag delete all attributes except `resource_id` and extract every direct
text content. -/
def removeAttrs : HNode → HNode
  | .txt s => .txt s
  | .tag n a cs =>
    .tag n (a.filter (fun p => p.1 = "resource_id")) (removeAttrsList cs)
/-- Attribute/text removal over a content list (text dropped). -/
def removeAttrsList : List HNode → List HNode
  | [] => []
  | .txt _ :: ts => removeAttrsList ts
  | .tag n a cs :: ts => removeAttrs (.tag n a cs) :: removeAttrsList ts
end

mutual
/-- `HTMLSkeleton._clean_repeated_siblings` (utils.py lines 934–954):
keep, among the tag children of every node, only the first child with
each shallow signature (a `seen_tags` set accumulated over the whole
sibling list), drop text children (`tag.clear()`), and recurse into each
kept child. -/
def cleanRepeated : HNode → HNode
  | .txt s => .txt s
  | .tag n a cs => .tag n a (cleanChildren cs [])
/-- Sibling filtering with the accumulated signature set. -/
def cleanChildren :
    List HNode → List (String × List (String × String)) → List HNode
  | [], _ => []
  | .txt _ :: ts, seen => cleanChildren ts seen
  | .tag n a cs :: ts, seen =>
    let sg := (n, sortedAttrs a)
    if sg ∈ seen then cleanChildren ts seen
    else cleanRepeated (.tag n a cs) :: cleanChildren ts (sg :: seen)
end

/-- Full skeleton normalization: what `HTMLSkeleton.__init__` performs on
a freshly parsed tree (`_remove_attributes` then
`_clean_repeated_siblings`); skeleton equality (`__eq__`, soup
comparison) is structural equality of this result. -/
def skeletonOfTree (t : HNode) : HNode :=
  cleanRepeated (removeAttrs t)

mutual
/-- Modelled from the spec: "recursively collapse runs of
structurally-identical consecutive sibling subtrees (same tag, same
retained attribute) into one representative" — the collapse looks only
at the immediately preceding sibling's signature, so non-adjacent
duplicates survive.  Used to compare the spec's collapse with the
code's `_clean_repeated_siblings`. -/
def specCollapse : HNode → HNode
  | .txt s => .txt s
  | .tag n a cs => .tag n a (specChildren cs none)
/-- Spec-modelled sibling collapse carrying the previous signature. -/
def specChildren :
    List HNode → Option (String × List (String × String)) → List HNode
  | [], _ => []
  | .txt _ :: ts, prev => specChildren ts prev
  | .tag n a cs :: ts, prev =>
    let sg := (n, sortedAttrs a)
    if some sg = prev then specChildren ts prev
    else specCollapse (.tag n a cs) :: specChildren ts (some sg)
end

mutual
/-- Structural identity of two trees in the sense of claim C4: same tag
names and same retained (`resource_id`) attributes position-for-position
over tag children; text and other attributes unconstrained. -/
def structEqB : HNode → HNode → Bool
  | .tag n1 a1 cs1, .tag n2 a2 cs2 =>
    n1 == n2 &&
    a1.filter (fun p => p.1 = "resource_id") ==
      a2.filter (fun p => p.1 = "resource_id") &&
    structEqListB cs1 cs2
  | _, _ => false
/-- Position-for-position comparison of tag children (text skipped on
either side). -/
def structEqListB : List HNode → List HNode → Bool
  | [], cs2 => (nextTag cs2).isNone
  | .txt _ :: cs1, cs2 => structEqListB cs1 cs2
  | .tag n1 a1 c1 :: cs1, cs2 =>
    match nextTag cs2 with
    | none => false
    | some (t2, rest2) => structEqB (.tag n1 a1 c1) t2 && structEqListB cs1 rest2
end

/-- Number of occurrences of a signature among a sibling list. -/
def countSig (l : List HNode) (sg : String × List (String × String)) : Nat :=
  l.countP (fun c => sigOf c == some sg)

mutual
/-- `HTMLSkeleton.count` on a common-structure result: the Tag is stored
directly (`is_formatted=True`), so `len(self.soup.find_all(recursive=True))`
counts the tag descendants strictly below the node. -/
def descCount : HNode → Nat
  | .txt _ => 0
  | .tag _ _ cs => descCountList cs
/-- Tag count of a forest, each tag contributing itself plus its
descendants. -/
def descCountList : List HNode → Nat
  | [] => 0
  | .txt _ :: ts => descCountList ts
  | .tag n a cs :: ts => 1 + descCount (.tag n a cs) + descCountList ts
end

/-- First binding of an attribute name (bs4 attrs are a dict). -/
def lookupAttr (a : List (String × String)) (k : String) : Option String :=
  match a with
  | [] => none
  | p :: ps => if p.1 = k then some p.2 else lookupAttr ps k

mutual
/-- `HTMLSkeleton.extract_common_skeleton.compare_and_extract_common`
(utils.py lines 969–985): `None` when tag names differ; otherwise keep
the attributes equal in both, pair tag children positionally
(`zip(node1.find_all(recursive=False), node2.find_all(recursive=False))`),
and keep each non-`None` common child (bs4 tags are always truthy, so
`if not (node1 and node2)` and `if common_child` only filter `None`). -/
def commonExtract : HNode → HNode → Option HNode
  | .tag n1 a1 cs1, .tag n2 a2 cs2 =>
    if n1 = n2 then
      some (.tag n1 (a1.filter (fun p => lookupAttr a2 p.1 = some p.2))
        (commonChildren cs1 cs2))
    else none
  | _, _ => none
/-- Positional pairing of tag children: text nodes on either side are
invisible to `find_all(recursive=False)`, and the zip stops at the
shorter side. -/
def commonChildren : List HNode → List HNode → List HNode
  | [], _ => []
  | .txt _ :: cs1, cs2 => commonChildren cs1 cs2
  | .tag n1 a1 c1 :: cs1, cs2 =>
    match nextTag cs2 with
    | none => []
    | some (t2, rest2) =>
      match commonExtract (.tag n1 a1 c1) t2 with
      | some c => c :: commonChildren cs1 rest2
      | none => commonChildren cs1 rest2
end

/-- Common-structure score used by `get_screen_name_by_skeleton`:
`extract_common_skeleton(...).count()`; a `None` common structure turns
into an empty skeleton of count zero. -/
def countCommon (a b : HNode) : Nat :=
  match commonExtract a b with
  | none => 0
  | some c => descCount c

/-! Catalog (`ApiDoc`, src/kernel/api_doc.py) and the resolution engine
(`Verifier`, src/kernel/ui_apis.py). -/

/-- Characters preceding the first occurrence of two consecutive
underscores. -/
def takeBeforeSep : List Char → List Char
  | [] => []
  | c :: rest =>
    if c = Char.ofNat 95 then
      match rest with
      | c2 :: _ =>
        if c2 = Char.ofNat 95 then [] else c :: takeBeforeSep rest
      | [] => [c]
    else c :: takeBeforeSep rest

/-- Owning screen of an api name: `name.split('__')[0]` — the text
preceding the first double-underscore separator. -/
def ownerOf (s : String) : String := ⟨takeBeforeSep s.data⟩

/-- A skeleton value as the engine sees it: its serialized string
(`HTMLSkeleton.str`, the key of `skeleton_str2screen_name`) and its
normalized tree (what `__eq__` compares). -/
structure SkelView where
  str : String
  tree : HNode
deriving DecidableEq

/-- One parsed dependency action (`DependentAction`, api_doc.py lines
9–71): its declared owning screen (text before the first `__`), its full
name (`screen_name + '__' + argv[0]`), its action type, and the text
payload for `set_text`. -/
structure DepAction where
  screenName : String
  name : String
  actionType : String
  text : String
deriving DecidableEq, Repr

/-- Catalog element (`ApiEle`): the ordered locator list and the parsed
dependency paths. -/
structure ApiEntry where
  xpath : List String
  deps : List (List DepAction)

/-- One catalog screen: name, raw skeleton string (key of
`skeleton_str2screen_name`), normalized skeleton, and its api elements
(`self.doc[screen_name]`). -/
structure ScreenEntry where
  name : String
  sklStr : String
  skl : HNode
  apis : List (String × ApiEntry)

/-- The loaded catalog (`ApiDoc`); screens kept in load order. -/
structure Doc where
  screens : List ScreenEntry

/-- The global `api_xpath` dict built across screens in load order
(later bindings overwrite earlier ones). -/
def apiXpathOf (d : Doc) : List (String × List String) :=
  d.screens.flatMap (fun s => s.apis.map (fun a => (a.1, a.2.xpath)))

/-- Runtime failures of the engine: the typed errors of
src/kernel/err.py plus the Python exceptions the code can raise. -/
inductive RunErr where
  | xpathError
  | notFoundError
  | keyError
  | attributeError
  | typeError
deriving DecidableEq, Repr

/-- Decidable equality of fallible results. -/
instance {e a : Type} [DecidableEq e] [DecidableEq a] :
    DecidableEq (Except e a) := fun x y =>
  match x, y with
  | .ok u, .ok v =>
    if h : u = v then isTrue (by rw [h])
    else isFalse (fun hh => by cases hh; exact h rfl)
  | .error u, .error v =>
    if h : u = v then isTrue (by rw [h])
    else isFalse (fun hh => by cases hh; exact h rfl)
  | .ok _, .error _ => isFalse (fun hh => by cases hh)
  | .error _, .ok _ => isFalse (fun hh => by cases hh)

/-- `ApiDoc.get_screen_name_by_skeleton` (api_doc.py lines 214–227):
exact lookup of the skeleton string first; on miss scan the catalog and
keep the first screen whose common-structure count strictly exceeds the
best so far (ties keep the earlier screen, zero keeps `None`).
`bestScreenStep` is one iteration of that scan. -/
def bestScreenStep (t : HNode) (acc : Nat × Option String)
    (e : ScreenEntry) : Nat × Option String :=
  let c := countCommon e.skl t
  if acc.1 < c then (c, some e.name) else acc

/-- The fallback scan of `get_screen_name_by_skeleton`. -/
def bestScreen (d : Doc) (t : HNode) : Option String :=
  (d.screens.foldl (bestScreenStep t) ((0 : Nat), (none : Option String))).2

def getScreenName (d : Doc) (sv : SkelView) : Option String :=
  match lookupLastS (d.screens.map (fun e => (e.sklStr, e.name))) sv.str with
  | some n => some n
  | none => bestScreen d sv.tree

/-- The `screen_name2skeleton` dict. -/
def screenSkelOf (d : Doc) (n : String) : Option HNode :=
  lookupLastS (d.screens.map (fun e => (e.name, e.skl))) n

/-- `ApiDoc.check_api_name_in_current_screen` (api_doc.py lines
229–241): unknown owning screen gives `False`; equal skeletons give
`True`; otherwise resolve the current screen and compare names (a
`None` resolution compares unequal to the owning screen). -/
def checkApiInCurrentScreen (d : Doc) (apiName : String) (cur : SkelView) :
    Bool :=
  match screenSkelOf d (ownerOf apiName) with
  | none => false
  | some sk =>
    if sk = cur.tree then true
    else
      match getScreenName d cur with
      | some n => ownerOf apiName == n
      | none => false

/-- `ApiDoc.get_api_by_name`: `self.doc[screen].get(name)`; a missing
screen raises `KeyError`. -/
def getApiByName (d : Doc) (nm : String) : Except RunErr (Option ApiEntry) :=
  match lookupLastS (d.screens.map (fun e => (e.name, e.apis)))
      (ownerOf nm) with
  | none => .error .keyError
  | some apis => .ok ((lookupLastS apis nm).map (fun a => a))

/-- `ApiDoc.get_dependency`: the parsed dependency paths of an api; a
missing api yields `(None, None)` which the caller treats like an empty
list; calling with `None` crashes on `None.split` (`AttributeError`). -/
def getDependency (d : Doc) (nm : Option String) :
    Except RunErr (List (List DepAction)) :=
  match nm with
  | none => .error .attributeError
  | some s =>
    (getApiByName d s).map (fun a? =>
      match a? with
      | none => []
      | some a => a.deps)

/-- Abstract environment of the resolution engine.  `S` is the engine's
cached session state (snapshot, tree, log); the fields are the
deterministic effects the replay loop invokes on it. -/
structure VEnv (S : Type) where
  lookupX : S → List String → Option Ele
  scrollFind : S → List String → S × Option Ele
  skelOf : S → SkelView
  treeOf : S → BuiltTree
  execBack : S → S
  execAct : S → DepAction → Ele → S

/-- Outcome of `get_and_navigate_target_element`. -/
inductive NavOutcome where
  | found (e : Ele)
  | xpathError
  | notFoundError
  | pyError (e : RunErr)
deriving DecidableEq, Repr

/-- State threaded through the inner action loop
(`for idx, action in enumerate(reversed(action_list))`):
session state, the target found so far, the `is_match` flag, the last
matched index `dep_id` (−1 initially), and the number of executed
dependency navigation actions. -/
structure InnerSt (S : Type) where
  s : S
  target : Option Ele
  isMatch : Bool
  depId : Int
  nav : Nat
deriving DecidableEq

/-- The inner action loop of the dependency replay (ui_apis.py lines
421–492): re-check the target; skip actions whose declared screen is not
the currently resolved screen; execute `back` unconditionally; resolve
any other action's locator via scroll search and execute it when found;
an unfound locator ends the list early only after some action matched. -/
def runActions (env : VEnv S) (d : Doc) (xpath : List String) :
    List DepAction → Nat → InnerSt S → InnerSt S
  | [], _, st => st
  | a :: rest, idx, st =>
    match env.lookupX st.s xpath with
    | some e => { st with target := some e }
    | none =>
      if some a.screenName ≠ getScreenName d (env.skelOf st.s) then
        runActions env d xpath rest (idx + 1) st
      else if a.actionType = "back" then
        runActions env d xpath rest (idx + 1)
          { st with s := env.execBack st.s, isMatch := true,
                    depId := (idx : Int), nav := st.nav + 1 }
      else
        match lookupLastS (apiXpathOf d) a.name with
        | none => runActions env d xpath rest (idx + 1) st
        | some axp =>
          if axp = [] then runActions env d xpath rest (idx + 1) st
          else
            match env.scrollFind st.s axp with
            | (s1, none) =>
              if st.isMatch then { st with s := s1 }
              else runActions env d xpath rest (idx + 1) { st with s := s1 }
            | (s1, some te) =>
              runActions env d xpath rest (idx + 1)
                { st with s := env.execAct s1 a te, isMatch := true,
                          depId := (idx : Int), nav := st.nav + 1 }

/-- State threaded through the loop over dependency paths. -/
structure PassSt (S : Type) where
  s : S
  target : Option Ele
  nav : Nat
  count : Nat
deriving DecidableEq

/-- The loop over `dependency_action[:MAX_DEPENDENCE_DEPTH]` (ui_apis.py
lines 416–503): run each path's inner loop; when the last matched index
reached the end of the reversed path, re-query the target and stop; when
some action matched, stop; otherwise try the next path. -/
def runLists (env : VEnv S) (d : Doc) (xpath : List String) :
    List (List DepAction) → PassSt S → PassSt S
  | [], ps => ps
  | al :: rest, ps =>
    let c1 := ps.count + 1
    let ist := runActions env d xpath al.reverse 0
      ⟨ps.s, ps.target, false, (-1 : Int), ps.nav⟩
    if (al.length : Int) - 1 ≤ ist.depId then
      ⟨ist.s, env.lookupX ist.s xpath, ist.nav, c1⟩
    else if ist.isMatch then
      ⟨ist.s, ist.target, ist.nav, c1⟩
    else
      runLists env d xpath rest ⟨ist.s, ist.target, ist.nav, c1⟩

/-- The outer `while target_ele is None and counter < MAX_DEPENDENCE_WIDTH`
loop (ui_apis.py lines 409–510).  Returns the target, the final state,
the executed dependency-action count, and a Python-level error if
`get_dependency` crashed. -/
def runWhile (env : VEnv S) (d : Doc) (xpath : List String)
    (apiName : Option String) (depD : Nat) :
    Nat → S → Nat → Option Ele × S × Nat × Option RunErr
  | 0, s, nav => (none, s, nav, none)
  | fuel + 1, s, nav =>
    match getDependency d apiName with
    | .error e => (none, s, nav, some e)
    | .ok dep =>
      if dep = [] then (none, s, nav, none)
      else
        let ps := runLists env d xpath (dep.take depD) ⟨s, none, nav, 0⟩
        if ps.count = dep.length then (ps.target, ps.s, ps.nav, none)
        else
          match ps.target with
          | some e => (some e, ps.s, ps.nav, none)
          | none => runWhile env d xpath apiName depD fuel ps.s ps.nav

/-- Result of `get_and_navigate_target_element`: outcome, final session
state, and the number of executed dependency navigation actions (`back`
executions plus dependency-action executions; scroll gestures live
inside `scrollFind`). -/
structure NavResult (S : Type) where
  out : NavOutcome
  s : S
  nav : Nat
deriving DecidableEq

/-- `Verifier.get_and_navigate_target_element` (ui_apis.py lines
385–527): direct lookup plus scroll search; on miss, raise `XPathError`
when the api is documented on the current screen; raise `NotFoundError`
when dependencies are disabled; otherwise replay dependency paths under
the width bound and raise `NotFoundError` when the target is still
absent. -/
def getAndNavigate (env : VEnv S) (d : Doc) (depW depD : Nat)
    (enableDep : Bool) (apiName : Option String) (xpath : List String)
    (s0 : S) : NavResult S :=
  match env.scrollFind s0 xpath with
  | (s1, some e) => ⟨.found e, s1, 0⟩
  | (s1, none) =>
    if apiName.isSome &&
        checkApiInCurrentScreen d (apiName.getD "") (env.skelOf s1) then
      ⟨.xpathError, s1, 0⟩
    else if !enableDep then ⟨.notFoundError, s1, 0⟩
    else
      match runWhile env d xpath apiName depD depW s1 0 with
      | (some e, s2, nav, _) => ⟨.found e, s2, nav⟩
      | (none, s2, nav, some pe) => ⟨.pyError pe, s2, nav⟩
      | (none, s2, nav, none) => ⟨.notFoundError, s2, nav⟩

/-- `Verifier._execute_action` (ui_apis.py lines 554–574): resolve the
target and, exactly when resolution succeeded, execute the one requested
terminal primitive action.  The second component counts executed
terminal actions. -/
def executeActionModel (env : VEnv S) (d : Doc) (depW depD : Nat)
    (enableDep : Bool) (apiName : Option String) (xpath : List String)
    (s0 : S) : NavResult S × Nat :=
  let r := getAndNavigate env d depW depD enableDep apiName xpath s0
  match r.out with
  | .found _ => (r, 1)
  | _ => (r, 0)

/-- Longest declared dependency path in the catalog. -/
def docMaxPathLen (d : Doc) : Nat :=
  (d.screens.flatMap (fun s => s.apis.flatMap
    (fun a => a.2.deps.map List.length))).foldl Nat.max 0

/-- `ElementTree._get_ele_by_xpath` (utils.py lines 558–573) with the
`lxml` evaluation abstracted as `evalX` (the locator evaluates to the
id embedded in the serialized document, or to nothing): map the matched
id back through the element map. -/
def getEleByXpathOne (t : BuiltTree) (evalX : String → Option Nat)
    (xp : String) : Option Ele :=
  (evalX xp).bind (lookupFirst t.eleMap)

/-- `ElementTree.get_ele_by_xpath` on an ordered locator list (utils.py
lines 575–585): first locator whose lookup produces an element wins; no
exception for an absent match. -/
def getEleByXpathList (t : BuiltTree) (evalX : String → Option Nat) :
    List String → Option Ele
  | [] => none
  | xp :: rest =>
    match getEleByXpathOne t evalX xp with
    | some e => some e
    | none => getEleByXpathList t evalX rest

/-- `ElementTree.get_children_by_idx` (utils.py lines 608–612) combined
with the map access: `none` when the index is past the child list
(Python returns `None`); `some none` when the child id is missing from
the element map (Python raises `KeyError`). -/
def getChildrenByIdx (t : BuiltTree) (e : Ele) (idx : Nat) :
    Option (Option Ele) :=
  match e.children.get? idx with
  | none => none
  | some cid => some (lookupFirst t.eleMap cid)

/-- Single apostrophe as a string. -/
def quoteCh : String := Char.toString (Char.ofNat 39)

/-- `ElementList.convert_ele_attr_to_elementlist` (ui_apis.py lines
883–889): the synthesized structural locator of a discovered element. -/
def wrapEleXpath (e : Ele) : String :=
  "//" ++ e.ty ++ "[@id=" ++ quoteCh ++ toString e.id ++ quoteCh ++ "]"

/-- `ElementList.__getitem__` with an integer selector (ui_apis.py lines
891–930): resolve the group, select its n-th direct child, and wrap it
as a new handle; an out-of-range index hands `None` to
`convert_ele_attr_to_elementlist`, which dereferences it
(`AttributeError`). -/
def elementListGetItem (env : VEnv S) (d : Doc) (depW depD : Nat)
    (enableDep : Bool) (apiName : Option String) (xpath : List String)
    (s0 : S) (n : Nat) : Except RunErr (List String) :=
  let r := getAndNavigate env d depW depD enableDep apiName xpath s0
  match r.out with
  | .found g =>
    match getChildrenByIdx (env.treeOf r.s) g n with
    | none => .error .attributeError
    | some none => .error .keyError
    | some (some e) => .ok [wrapEleXpath e]
  | .xpathError => .error .xpathError
  | .notFoundError => .error .notFoundError
  | .pyError pe => .error pe

/-- Number of positional arguments `ElementList.__len__` passes to
`get_and_navigate_target_element` (ui_apis.py line 1052: api name,
xpath, `'__len__'`, statement). -/
def lenCallArgCount : Nat := 4

/-- Number of positional parameters `get_and_navigate_target_element`
declares (ui_apis.py line 385: api name, xpath, statement). -/
def lenCallParamCount : Nat := 3

/-- `ElementList.__len__` (ui_apis.py lines 1037–1072).  The call on
line 1052 passes four positional arguments to a three-parameter method,
so Python raises `TypeError` before any resolution runs; the remainder
models the body that the extra argument prevents (note the
`if not target_ele: return 0` fallback is unreachable anyway, since
resolution raises instead of returning `None`). -/
def elementListLen (env : VEnv S) (d : Doc) (depW depD : Nat)
    (enableDep : Bool) (apiName : Option String) (xpath : List String)
    (s0 : S) : Except RunErr Nat :=
  if lenCallArgCount ≠ lenCallParamCount then .error .typeError
  else
    let r := getAndNavigate env d depW depD enableDep apiName xpath s0
    match r.out with
    | .found g => .ok g.children.length
    | .xpathError => .error .xpathError
    | .notFoundError => .error .notFoundError
    | .pyError pe => .error pe

/-! Concrete instances used by counterexamples and witnesses. -/

instance : Inhabited BuiltTree := ⟨⟨.node 0 ∅ [], [], ∅, ∅, []⟩⟩

/-- Element constructor for tiny inputs. -/
def mkEle (i : Nat) (cs : List Nat) (tx : String) : Ele :=
  { id := i, children := cs, scrollable := false, ty := "div", text := tx }

/-- Ascending rank of an id among a list of ids: the number of listed
ids strictly below it. -/
def rankOf (o : Nat) (l : List Nat) : Nat :=
  (l.filter (fun x => x < o)).length

/-- Raw input whose sibling order disagrees with the numeric order of
the ids: root 0 lists its leaf children as [2, 1]. -/
def c1m : RawMap :=
  [(0, mkEle 0 [2, 1] "root"), (1, mkEle 1 [] "one"), (2, mkEle 2 [] "two")]

/-- Shape of `c1m` (fuel 9 is ample for three nodes). -/
def c1sh : BTree := (buildShape c1m 9 0).getD (.node 0 [])

/-- Built tree of `c1m` with both leaves valid. -/
def c1T : BuiltTree := (buildTree 9 c1m [1, 2] 0).getD default

/-- Two-node chain: root 0 over leaf 1, leaf valid. -/
def c2m : RawMap := [(0, mkEle 0 [1] "r"), (1, mkEle 1 [] "a")]

/-- Built tree of `c2m`. -/
def c2T : BuiltTree := (buildTree 9 c2m [1] 0).getD default

/-- Subtree extraction of `c1T` at its root. -/
def c6T2 : BuiltTree := (extractSubtree 9 c1T 0).getD default

/-- The BFS-collected key list of that extraction. -/
def c6keys : List Nat := (collectReachable c1T.eleMap 9 [0] []).getD []

/-- Skeleton with one internal level, so that the common structure with
itself has a positive count. -/
def c5Skl : HNode := .tag "div" [] [.tag "p" [] []]

/-- Catalog with two screens carrying the same skeleton: a tie. -/
def c5Doc : Doc :=
  ⟨[⟨"A", "SA", c5Skl, []⟩, ⟨"B", "SB", c5Skl, []⟩]⟩

/-- Parsed dependency action `back()` declared on screen nav. -/
def c3Back : DepAction := ⟨"nav", "nav__x", "back", ""⟩

/-- Skeleton of the screen the engine currently resolves. -/
def c3NavSkl : HNode := .tag "n" [] [.tag "p" [] []]

/-- Skeleton of the screen that owns the unreachable target. -/
def c3ScrSkl : HNode := .tag "s" [] [.tag "q" [] []]

/-- Catalog for the replay-bound counterexample: the current screen nav
is matched exactly, and the target api on screen scr declares one
dependency path made of two back actions. -/
def c3Doc : Doc :=
  ⟨[⟨"nav", "LIVE", c3NavSkl, []⟩,
    ⟨"scr", "OTHER", c3ScrSkl, [("scr__tgt", ⟨["X"], [[c3Back, c3Back]]⟩)]⟩]⟩

/-- Degenerate environment: nothing is ever found, scrolling moves
nothing, the skeleton is constantly the nav screen's. -/
def c3Env : VEnv Unit :=
  { lookupX := fun _ _ => none,
    scrollFind := fun s _ => (s, none),
    skelOf := fun _ => ⟨"LIVE", c3NavSkl⟩,
    treeOf := fun _ => default,
    execBack := id,
    execAct := fun s _ _ => s }

/-- Catalog whose only api is declared on the currently resolved
screen. -/
def c7Doc : Doc := ⟨[⟨"nav", "LIVE", c3NavSkl, [("nav__y", ⟨["Y"], []⟩)]⟩]⟩

/-- Resolved group element with one child (id 7). -/
def c9Group : Ele :=
  { id := 3, children := [7], scrollable := false, ty := "div", text := "" }

/-- The single child of the group. -/
def c9Child : Ele :=
  { id := 7, children := [], scrollable := false, ty := "button", text := "" }

/-- Element tree holding the group and its child. -/
def c9Tree : BuiltTree := ⟨.node 0 ∅ [], [(3, c9Group), (7, c9Child)], ∅, ∅, []⟩

/-- Environment where scroll search immediately resolves the group. -/
def c9Env : VEnv Unit :=
  { c3Env with scrollFind := fun s _ => (s, some c9Group),
               treeOf := fun _ => c9Tree }

/-- Structure-only subtree A used by the sibling-collapse
counterexample. -/
def c4A : HNode := .tag "div" [] []

/-- Structure-only subtree B, different tag. -/
def c4B : HNode := .tag "p" [] []

/-- Parent whose children are [A, B, A, A]: the trailing run of two
identical A-subtrees sits after an earlier A sibling. -/
def c4P : HNode := .tag "d" [] [c4A, c4B, c4A, c4A]

/-- Locator evaluation used by the locator-list witness: only the
second locator matches, yielding id 1. -/
def c8eval : String → Option Nat :=
  fun s => if s = "B" then some 1 else none

/-! Theorems.  General lemmas first, then one theorem per claim (with
counterexamples and witnesses where required). -/

theorem lookupFirstS_eq_none_iff (l : List (String × α)) (k : String) :
    lookupFirstS l k = none ↔ ∀ p ∈ l, p.1 ≠ k := by
  induction l with
  | nil => simp [lookupFirstS]
  | cons p ps ih =>
    by_cases h : p.1 = k
    · simp [lookupFirstS, h]
    · simp [lookupFirstS, h, ih]

theorem lookupFirstS_mem {l : List (String × α)} {k : String} {v : α}
    (h : lookupFirstS l k = some v) : (k, v) ∈ l := by
  induction l with
  | nil => simp [lookupFirstS] at h
  | cons p ps ih =>
    unfold lookupFirstS at h
    split at h
    · next heq =>
      injection h with hv
      have hkv : (k, v) = p := by
        obtain ⟨a, b⟩ := p
        simp only at heq hv
        cases heq
        cases hv
        rfl
      rw [hkv]
      exact List.mem_cons_self _ _
    · exact List.mem_cons_of_mem _ (ih h)

theorem lookupFirst_mem {l : List (Nat × α)} {k : Nat} {v : α}
    (h : lookupFirst l k = some v) : (k, v) ∈ l := by
  induction l with
  | nil => simp [lookupFirst] at h
  | cons p ps ih =>
    unfold lookupFirst at h
    split at h
    · next heq =>
      injection h with hv
      have hkv : (k, v) = p := by
        obtain ⟨a, b⟩ := p
        simp only at heq hv
        cases heq
        cases hv
        rfl
      rw [hkv]
      exact List.mem_cons_self _ _
    · exact List.mem_cons_of_mem _ (ih h)

theorem lookupFirst_eq_none_iff (l : List (Nat × α)) (k : Nat) :
    lookupFirst l k = none ↔ ∀ p ∈ l, p.1 ≠ k := by
  induction l with
  | nil => simp [lookupFirst]
  | cons p ps ih =>
    by_cases h : p.1 = k
    · simp [lookupFirst, h]
    · simp [lookupFirst, h, ih]

theorem lookupLastS_mem {l : List (String × α)} {k : String} {v : α}
    (h : lookupLastS l k = some v) : (k, v) ∈ l := by
  have := lookupFirstS_mem h
  exact List.mem_reverse.1 this

/-- C10: every call of `ElementList.__len__` raises `TypeError`: line
1052 of ui_apis.py passes four positional arguments (api name, xpath,
the literal string, the statement record) to
`get_and_navigate_target_element`, which declares three; resolution and
the zero-with-warning fallback are never reached. -/
theorem C10_len_typeError {S : Type} (env : VEnv S) (d : Doc)
    (depW depD : Nat) (ed : Bool) (a : Option String) (x : List String)
    (s : S) : elementListLen env d depW depD ed a x s = .error .typeError :=
  rfl

/-- C9 (amended): `ElementList.__getitem__(n)` resolves the group and,
when the index is in range, returns the n-th direct child wrapped with a
synthesized structural locator (`KeyError` if the child id were absent
from the element map); an out-of-range index hands `None` to
`convert_ele_attr_to_elementlist`, which raises `AttributeError` — it
does not yield absence. -/
theorem C9_getitem_spec {S : Type} (env : VEnv S) (d : Doc)
    (depW depD : Nat) (ed : Bool) (a : Option String) (x : List String)
    (s : S) (n : Nat) (g : Ele)
    (hf : (getAndNavigate env d depW depD ed a x s).out = .found g) :
    (∀ cid, g.children.get? n = some cid →
      elementListGetItem env d depW depD ed a x s n =
        match lookupFirst
            (env.treeOf (getAndNavigate env d depW depD ed a x s).s).eleMap
            cid with
        | some e => .ok [wrapEleXpath e]
        | none => .error .keyError) ∧
    (g.children.get? n = none →
      elementListGetItem env d depW depD ed a x s n =
        .error .attributeError) := by
  constructor
  · intro cid hc
    unfold elementListGetItem
    simp only [hf, getChildrenByIdx, hc]
    cases hLU : lookupFirst
        (env.treeOf (getAndNavigate env d depW depD ed a x s).s).eleMap
        cid <;> simp [hLU]
  · intro hc
    unfold elementListGetItem
    simp only [hf, getChildrenByIdx, hc]

/-- C9 witness: on the concrete group with one child, index 0 returns
the wrapped child. -/
theorem C9_witness :
    elementListGetItem c9Env c3Doc 1 1 true (some "g") ["G"] () 0 =
      .ok [wrapEleXpath c9Child] := by
  have h := (C9_getitem_spec c9Env c3Doc 1 1 true (some "g") ["G"] () 0
    c9Group (by decide)).1 7 (by decide)
  rw [h]
  decide

/-- C9 counterexample: the claim says an out-of-range index yields
absence, not an error; on the resolved one-child group, index 5 raises
`AttributeError`. -/
theorem C9_counterexample :
    elementListGetItem c9Env c3Doc 1 1 true (some "g") ["G"] () 5 =
      .error .attributeError ∧
    (getAndNavigate c9Env c3Doc 1 1 true (some "g") ["G"] ()).out =
      .found c9Group ∧
    c9Group.children.length ≤ 5 := by decide

theorem bestScreen_fold_some (t : HNode) :
    ∀ (l : List ScreenEntry) (acc : Nat × Option String) {n : String},
      (l.foldl (bestScreenStep t) acc).2 = some n →
      acc.2 = some n ∨ ∃ e ∈ l, e.name = n := by
  intro l
  induction l with
  | nil => intro acc n h; exact Or.inl h
  | cons e es ih =>
    intro acc n h
    rw [List.foldl_cons] at h
    rcases ih _ h with h1 | h2
    · by_cases hlt : acc.1 < countCommon e.skl t
      · simp only [bestScreenStep, if_pos hlt] at h1
        cases h1
        exact Or.inr ⟨e, List.mem_cons_self _ _, rfl⟩
      · simp only [bestScreenStep, if_neg hlt] at h1
        exact Or.inl h1
    · obtain ⟨e2, he2, hn⟩ := h2
      exact Or.inr ⟨e2, List.mem_cons_of_mem _ he2, hn⟩

theorem getScreenName_mem {d : Doc} {sv : SkelView} {n : String}
    (h : getScreenName d sv = some n) : ∃ e ∈ d.screens, e.name = n := by
  unfold getScreenName at h
  cases hx : lookupLastS (d.screens.map (fun e => (e.sklStr, e.name)))
      sv.str with
  | some n0 =>
    rw [hx] at h
    cases h
    have := lookupLastS_mem hx
    obtain ⟨e, he, hpair⟩ := List.mem_map.1 this
    exact ⟨e, he, congrArg Prod.snd hpair⟩
  | none =>
    rw [hx] at h
    unfold bestScreen at h
    rcases bestScreen_fold_some sv.tree d.screens _ h with h1 | h2
    · simp at h1
    · exact h2

theorem screenSkelOf_isSome {d : Doc} {n : String}
    (h : ∃ e ∈ d.screens, e.name = n) : ∃ sk, screenSkelOf d n = some sk := by
  obtain ⟨e, he, rfl⟩ := h
  unfold screenSkelOf lookupLastS
  cases hx : lookupFirstS
      ((d.screens.map (fun e => (e.name, e.skl))).reverse) e.name with
  | some sk => exact ⟨sk, rfl⟩
  | none =>
    exfalso
    rw [lookupFirstS_eq_none_iff] at hx
    exact hx (e.name, e.skl)
      (List.mem_reverse.2 (List.mem_map.2 ⟨e, he, rfl⟩)) rfl

theorem checkApi_of_resolved {d : Doc} {a : String} {cur : SkelView}
    (h : getScreenName d cur = some (ownerOf a)) :
    checkApiInCurrentScreen d a cur = true := by
  obtain ⟨sk, hsk⟩ := screenSkelOf_isSome (getScreenName_mem h)
  unfold checkApiInCurrentScreen
  rw [hsk]
  by_cases heq : sk = cur.tree
  · simp [heq]
  · simp [heq, h]

/-- C7: when direct lookup and scroll search fail and the current screen
resolves to the api name's declared owning screen, the engine raises
`XPathError` (the spec's LocatorError) at once, with zero dependency
navigation actions executed. -/
theorem C7_xpathError_immediate {S : Type} (env : VEnv S) (d : Doc)
    (depW depD : Nat) (ed : Bool) (a : String) (x : List String)
    (s : S) (s1 : S)
    (hscroll : env.scrollFind s x = (s1, none))
    (hres : getScreenName d (env.skelOf s1) = some (ownerOf a)) :
    getAndNavigate env d depW depD ed (some a) x s = ⟨.xpathError, s1, 0⟩ := by
  unfold getAndNavigate
  rw [hscroll]
  simp [checkApi_of_resolved hres]

/-- C7 witness: the concrete engine run on an api declared on the
currently resolved screen. -/
theorem C7_witness :
    getAndNavigate c3Env c7Doc 5 5 true (some "nav__y") ["Y"] () =
      ⟨.xpathError, (), 0⟩ :=
  C7_xpathError_immediate c3Env c7Doc 5 5 true "nav__y" ["Y"] () ()
    (by decide) (by decide)

theorem runActions_nav_le {S : Type} (env : VEnv S) (d : Doc)
    (x : List String) :
    ∀ (al : List DepAction) (idx : Nat) (st : InnerSt S),
      (runActions env d x al idx st).nav ≤ st.nav + al.length := by
  intro al
  induction al with
  | nil => intro idx st; simp [runActions]
  | cons a rest ih =>
    intro idx st
    unfold runActions
    split
    · show st.nav ≤ st.nav + (a :: rest).length
      simp
    · split
      · refine le_trans (ih (idx + 1) st) ?_
        simp
      · split
        · refine le_trans (ih (idx + 1) _) ?_
          show st.nav + 1 + rest.length ≤ st.nav + (a :: rest).length
          simp [Nat.add_assoc, Nat.add_comm 1 rest.length]
        · split
          · refine le_trans (ih (idx + 1) st) ?_
            simp
          · split
            · refine le_trans (ih (idx + 1) st) ?_
              simp
            · split
              · split
                · show st.nav ≤ st.nav + (a :: rest).length
                  simp
                · refine le_trans (ih (idx + 1) _) ?_
                  show st.nav + rest.length ≤ st.nav + (a :: rest).length
                  simp
              · refine le_trans (ih (idx + 1) _) ?_
                show st.nav + 1 + rest.length ≤ st.nav + (a :: rest).length
                simp [Nat.add_assoc, Nat.add_comm 1 rest.length]

theorem runLists_nav_le {S : Type} (env : VEnv S) (d : Doc)
    (x : List String) (K : Nat) :
    ∀ (ls : List (List DepAction)) (ps : PassSt S),
      (∀ al ∈ ls, al.length ≤ K) →
      (runLists env d x ls ps).nav ≤ ps.nav + ls.length * K := by
  intro ls
  induction ls with
  | nil => intro ps _; simp [runLists]
  | cons al rest ih =>
    intro ps hK
    have hlen : al.length ≤ K := hK al (List.mem_cons_self _ _)
    have hA := runActions_nav_le env d x al.reverse 0
      ⟨ps.s, ps.target, false, (-1 : Int), ps.nav⟩
    simp only [List.length_reverse] at hA
    unfold runLists
    simp only [List.length_cons, Nat.succ_mul]
    split
    · simp only
      omega
    · split
      · simp only
        omega
      · have := ih ⟨(runActions env d x al.reverse 0
            ⟨ps.s, ps.target, false, (-1 : Int), ps.nav⟩).s,
          (runActions env d x al.reverse 0
            ⟨ps.s, ps.target, false, (-1 : Int), ps.nav⟩).target,
          (runActions env d x al.reverse 0
            ⟨ps.s, ps.target, false, (-1 : Int), ps.nav⟩).nav,
          ps.count + 1⟩ (fun al2 h2 => hK al2 (List.mem_cons_of_mem _ h2))
        simp only at this
        omega

theorem le_foldl_max (l : List Nat) : ∀ x ∈ l, x ≤ l.foldl Nat.max 0 := by
  have haux : ∀ (l : List Nat) (acc : Nat),
      acc ≤ l.foldl Nat.max acc ∧ ∀ x ∈ l, x ≤ l.foldl Nat.max acc := by
    intro l
    induction l with
    | nil => intro acc; simp
    | cons a as ih =>
      intro acc
      constructor
      · exact le_trans (Nat.le_max_left _ _) (ih (Nat.max acc a)).1
      · intro x hx
        rcases List.mem_cons.1 hx with rfl | hx2
        · exact le_trans (Nat.le_max_right _ _) (ih (Nat.max acc x)).1
        · exact (ih (Nat.max acc a)).2 x hx2
  exact (haux l 0).2

theorem getDependency_len_le {d : Doc} {a : Option String}
    {dep : List (List DepAction)} (h : getDependency d a = .ok dep) :
    ∀ al ∈ dep, al.length ≤ docMaxPathLen d := by
  intro al hal
  cases a with
  | none => simp [getDependency] at h
  | some nm =>
    simp only [getDependency, getApiByName] at h
    cases h1 : lookupLastS (d.screens.map (fun e => (e.name, e.apis)))
        (ownerOf nm) with
    | none => rw [h1] at h; simp [Except.map] at h
    | some apis =>
      rw [h1] at h
      simp only [Except.map] at h
      cases h2 : lookupLastS apis nm with
      | none =>
        rw [h2] at h
        injection h with h3
        rw [← h3] at hal
        simp at hal
      | some api =>
        rw [h2] at h
        injection h with h3
        have hmemS := lookupLastS_mem h1
        obtain ⟨e, he, hpair⟩ := List.mem_map.1 hmemS
        have hapis : apis = e.apis := by
          have := congrArg Prod.snd hpair
          simp at this
          exact this.symm
        have hmemA := lookupLastS_mem h2
        rw [hapis] at hmemA
        apply le_foldl_max
        apply List.mem_flatMap.2
        refine ⟨e, he, ?_⟩
        apply List.mem_flatMap.2
        refine ⟨(nm, api), hmemA, ?_⟩
        apply List.mem_map.2
        refine ⟨al, ?_, rfl⟩
        rw [← h3] at hal
        exact hal

theorem runWhile_nav_le {S : Type} (env : VEnv S) (d : Doc)
    (x : List String) (a : Option String) (depD : Nat) :
    ∀ (fuel : Nat) (s : S) (nav : Nat),
      (runWhile env d x a depD fuel s nav).2.2.1 ≤
        nav + fuel * (depD * docMaxPathLen d) := by
  intro fuel
  induction fuel with
  | zero => intro s nav; simp [runWhile]
  | succ fl ih =>
    intro s nav
    unfold runWhile
    split
    · simp
    · next dep hdep =>
      split
      · simp
      · have hK : ∀ al ∈ dep.take depD, al.length ≤ docMaxPathLen d :=
          fun al hal =>
            getDependency_len_le hdep al (List.mem_of_mem_take hal)
        have hL : (runLists env d x (dep.take depD)
            ⟨s, none, nav, 0⟩).nav ≤
              nav + (dep.take depD).length * docMaxPathLen d :=
          runLists_nav_le env d x (docMaxPathLen d) (dep.take depD)
            ⟨s, none, nav, 0⟩ hK
        have htk : (dep.take depD).length ≤ depD := by
          simp [List.length_take]
        have hmul := Nat.mul_le_mul_right (docMaxPathLen d) htk
        have hbound : (runLists env d x (dep.take depD)
            ⟨s, none, nav, 0⟩).nav ≤ nav + depD * docMaxPathLen d := by
          omega
        simp only [Nat.succ_mul]
        split
        · show (runLists env d x (dep.take depD) ⟨s, none, nav, 0⟩).nav ≤ _
          omega
        · split
          · show (runLists env d x (dep.take depD) ⟨s, none, nav, 0⟩).nav ≤ _
            omega
          · have hr := ih (runLists env d x (dep.take depD)
              ⟨s, none, nav, 0⟩).s (runLists env d x (dep.take depD)
              ⟨s, none, nav, 0⟩).nav
            omega

/-- C3 (amended): during dependency replay for any requested action the
engine executes at most
`MAX_DEPENDENCE_WIDTH × MAX_DEPENDENCE_DEPTH × L` dependency navigation
sub-actions, where `L` is the longest dependency path declared in the
catalog (the loop bounds the number of replay rounds and the number of
paths tried per round, not the length of a path; scroll gestures inside
each scroll search are bounded separately by that search); and each
top-level request executes at most one terminal primitive action. -/
theorem C3_replay_bound {S : Type} (env : VEnv S) (d : Doc)
    (depW depD : Nat) (ed : Bool) (a : Option String) (x : List String)
    (s0 : S) :
    (getAndNavigate env d depW depD ed a x s0).nav ≤
      depW * (depD * docMaxPathLen d) ∧
    (executeActionModel env d depW depD ed a x s0).2 ≤ 1 := by
  constructor
  · unfold getAndNavigate
    split
    · simp
    · next s1 heq =>
      have hb := runWhile_nav_le env d x a depD depW s1 0
      rcases hrw : runWhile env d x a depD depW s1 0 with ⟨t?, s2, nv, e?⟩
      rw [hrw] at hb
      simp only at hb
      split
      · simp
      · split
        · simp
        · cases t? <;> cases e? <;> simpa using hb
  · cases hout : (getAndNavigate env d depW depD ed a x s0).out <;>
      simp [executeActionModel, hout]

/-- C3 counterexample: a genuinely unreachable target whose single
dependency path holds two matching back actions: with
`MAX_DEPENDENCE_WIDTH = MAX_DEPENDENCE_DEPTH = 1` the engine executes
two navigation sub-actions — more than the claimed 1 × 1 bound — before
raising `NotFoundError`. -/
theorem C3_counterexample :
    (getAndNavigate c3Env c3Doc 1 1 true (some "scr__tgt") ["X"] ()).nav = 2 ∧
    (getAndNavigate c3Env c3Doc 1 1 true (some "scr__tgt") ["X"] ()).out =
      .notFoundError ∧
    1 * 1 < 2 := by decide

theorem foldBest_const (t : HNode) :
    ∀ (l : List ScreenEntry) (acc : Nat × Option String),
      (∀ e ∈ l, countCommon e.skl t ≤ acc.1) →
      l.foldl (bestScreenStep t) acc = acc := by
  intro l
  induction l with
  | nil => intro acc _; rfl
  | cons e es ih =>
    intro acc hle
    rw [List.foldl_cons]
    have hstep : bestScreenStep t acc e = acc := by
      unfold bestScreenStep
      have := hle e (List.mem_cons_self _ _)
      simp only
      rw [if_neg (by omega)]
    rw [hstep]
    exact ih acc (fun e2 h2 => hle e2 (List.mem_cons_of_mem _ h2))

theorem foldBest_lt (t : HNode) (c : Nat) :
    ∀ (l : List ScreenEntry) (acc : Nat × Option String),
      acc.1 < c → (∀ e ∈ l, countCommon e.skl t < c) →
      (l.foldl (bestScreenStep t) acc).1 < c := by
  intro l
  induction l with
  | nil => intro acc h _; exact h
  | cons e es ih =>
    intro acc hacc hlt
    rw [List.foldl_cons]
    refine ih _ ?_ (fun e2 h2 => hlt e2 (List.mem_cons_of_mem _ h2))
    unfold bestScreenStep
    simp only
    split
    · exact hlt e (List.mem_cons_self _ _)
    · exact hacc

/-- C5 (amended): screen resolution returns the exact skeleton-string
match when one exists; with no exact match and all common-structure
scores zero it returns no screen; with no exact match and a positive
maximal score it returns the first screen attaining the maximum — on a
tie the earlier catalog screen wins, the resolution does not become
"unresolved". -/
theorem C5_screen_resolution (d : Doc) (sv : SkelView) :
    (∀ n, lookupLastS (d.screens.map (fun e => (e.sklStr, e.name))) sv.str =
        some n → getScreenName d sv = some n) ∧
    (lookupLastS (d.screens.map (fun e => (e.sklStr, e.name))) sv.str = none →
      (∀ e ∈ d.screens, countCommon e.skl sv.tree = 0) →
      getScreenName d sv = none) ∧
    (∀ (pre : List ScreenEntry) (e : ScreenEntry) (post : List ScreenEntry),
      d.screens = pre ++ e :: post →
      lookupLastS (d.screens.map (fun e => (e.sklStr, e.name))) sv.str =
        none →
      0 < countCommon e.skl sv.tree →
      (∀ e1 ∈ pre, countCommon e1.skl sv.tree < countCommon e.skl sv.tree) →
      (∀ e2 ∈ post, countCommon e2.skl sv.tree ≤ countCommon e.skl sv.tree) →
      getScreenName d sv = some e.name) := by
  refine ⟨?_, ?_, ?_⟩
  · intro n hx
    unfold getScreenName
    rw [hx]
  · intro hx hz
    unfold getScreenName
    rw [hx]
    unfold bestScreen
    rw [foldBest_const sv.tree d.screens (0, none)
      (fun e he => le_of_eq (hz e he))]
  · intro pre e post hsplit hx hpos hpre hpost
    unfold getScreenName
    rw [hx]
    unfold bestScreen
    rw [hsplit, List.foldl_append, List.foldl_cons]
    have hlt : (pre.foldl (bestScreenStep sv.tree) (0, none)).1 <
        countCommon e.skl sv.tree :=
      foldBest_lt sv.tree (countCommon e.skl sv.tree) pre (0, none) hpos hpre
    have hstep : bestScreenStep sv.tree
        (pre.foldl (bestScreenStep sv.tree) (0, none)) e =
        (countCommon e.skl sv.tree, some e.name) := by
      show (if (pre.foldl (bestScreenStep sv.tree) (0, none)).1 <
            countCommon e.skl sv.tree
          then (countCommon e.skl sv.tree, some e.name)
          else pre.foldl (bestScreenStep sv.tree) (0, none)) = _
      rw [if_pos hlt]
    rw [hstep]
    rw [foldBest_const sv.tree post _ (fun e2 h2 => hpost e2 h2)]

/-- C5 witness: exact match on the concrete catalog. -/
theorem C5_witness : getScreenName c5Doc ⟨"SB", c5Skl⟩ = some "B" :=
  (C5_screen_resolution c5Doc ⟨"SB", c5Skl⟩).1 "B" (by decide)

/-- C5 counterexample: two catalog screens share the live skeleton's
structure with the same positive score and no exact string match; the
claim demands "unresolved", the code returns the first screen. -/
theorem C5_counterexample :
    getScreenName c5Doc ⟨"LIVE", c5Skl⟩ = some "A" ∧
    countCommon (HNode.tag "div" [] [HNode.tag "p" [] []]) c5Skl =
      countCommon (HNode.tag "div" [] [HNode.tag "p" [] []]) c5Skl ∧
    0 < countCommon (HNode.tag "div" [] [HNode.tag "p" [] []]) c5Skl ∧
    lookupLastS (c5Doc.screens.map (fun e => (e.sklStr, e.name))) "LIVE" =
      none := by decide

/-- C8: on an ordered locator list, `get_ele_by_xpath` returns the
element of the first locator whose evaluation matches (provided, as the
serialization guarantees, every matched id is present in the element
map), and returns absence — never an exception — when no locator in the
list matches. -/
theorem C8_first_match (t : BuiltTree) (evalX : String → Option Nat)
    (hin : ∀ xp i, evalX xp = some i → (lookupFirst t.eleMap i).isSome) :
    (∀ xps : List String, (∀ xp ∈ xps, evalX xp = none) →
      getEleByXpathList t evalX xps = none) ∧
    (∀ (pre : List String) (xp : String) (i : Nat) (post : List String),
      (∀ y ∈ pre, evalX y = none) → evalX xp = some i →
      getEleByXpathList t evalX (pre ++ xp :: post) =
        lookupFirst t.eleMap i ∧
      (getEleByXpathList t evalX (pre ++ xp :: post)).isSome) := by
  constructor
  · intro xps
    induction xps with
    | nil => intro _; rfl
    | cons y ys ih =>
      intro hnone
      unfold getEleByXpathList getEleByXpathOne
      rw [hnone y (List.mem_cons_self _ _)]
      exact ih (fun z hz => hnone z (List.mem_cons_of_mem _ hz))
  · intro pre
    induction pre with
    | nil =>
      intro xp i post _ hxp
      have hsome := hin xp i hxp
      constructor
      · show (match (evalX xp).bind (lookupFirst t.eleMap) with
          | some e => some e
          | none => getEleByXpathList t evalX post) = lookupFirst t.eleMap i
        rw [hxp]
        show (match lookupFirst t.eleMap i with
          | some e => some e
          | none => getEleByXpathList t evalX post) = lookupFirst t.eleMap i
        cases hl : lookupFirst t.eleMap i with
        | some e => rfl
        | none => rw [hl] at hsome; simp at hsome
      · show (match (evalX xp).bind (lookupFirst t.eleMap) with
          | some e => some e
          | none => getEleByXpathList t evalX post).isSome = true
        rw [hxp]
        show (match lookupFirst t.eleMap i with
          | some e => some e
          | none => getEleByXpathList t evalX post).isSome = true
        cases hl : lookupFirst t.eleMap i with
        | some e => rfl
        | none => rw [hl] at hsome; simp at hsome
    | cons y ys ih =>
      intro xp i post hnone hxp
      have h1 : evalX y = none := hnone y (List.mem_cons_self _ _)
      have ih2 := ih xp i post (fun z hz => hnone z (List.mem_cons_of_mem _ hz))
        hxp
      rw [List.cons_append]
      unfold getEleByXpathList getEleByXpathOne
      rw [h1]
      simpa using ih2

/-- C8 witness: on the concrete tree, the second locator is the first
match and its element is returned. -/
theorem C8_witness :
    getEleByXpathList c1T c8eval (["A"] ++ "B" :: []) =
      lookupFirst c1T.eleMap 1 ∧
    (getEleByXpathList c1T c8eval (["A"] ++ "B" :: [])).isSome :=
  (C8_first_match c1T c8eval
    (fun xp i h => by
      unfold c8eval at h
      split at h
      · cases h; decide
      · cases h)).2 ["A"] "B" 1 [] (by decide) (by decide)

theorem nextTag_none_removeList :
    ∀ cs : List HNode, nextTag cs = none → removeAttrsList cs = [] := by
  intro cs
  induction cs with
  | nil => intro _; rfl
  | cons c ts ih =>
    intro h
    cases c with
    | txt s => exact ih h
    | tag n a cs2 => simp [nextTag] at h

theorem nextTag_some_removeList :
    ∀ (cs2 : List HNode) (t2 : HNode) (rest2 : List HNode),
      nextTag cs2 = some (t2, rest2) →
      removeAttrsList cs2 = removeAttrs t2 :: removeAttrsList rest2 := by
  intro cs2
  induction cs2 with
  | nil => intro t2 rest2 h; simp [nextTag] at h
  | cons c ts ih =>
    intro t2 rest2 h
    cases c with
    | txt s => exact ih t2 rest2 h
    | tag n a cs3 =>
      simp only [nextTag] at h
      injection h with hp
      rw [show t2 = HNode.tag n a cs3 from (congrArg Prod.fst hp).symm,
          show rest2 = ts from (congrArg Prod.snd hp).symm]
      rfl

mutual
theorem structEq_remove : ∀ t1 t2 : HNode, structEqB t1 t2 = true →
    removeAttrs t1 = removeAttrs t2
  | .txt s, t2, h => by cases t2 <;> simp [structEqB] at h
  | .tag n1 a1 cs1, t2, h => by
    cases t2 with
    | txt u => simp [structEqB] at h
    | tag n2 a2 cs2 =>
      simp only [structEqB, Bool.and_eq_true, beq_iff_eq] at h
      obtain ⟨⟨h1, h2⟩, h3⟩ := h
      have hcs := structEqList_remove cs1 cs2 h3
      simp only [removeAttrs]
      rw [h1, h2, hcs]
theorem structEqList_remove : ∀ cs1 cs2 : List HNode,
    structEqListB cs1 cs2 = true →
    removeAttrsList cs1 = removeAttrsList cs2
  | [], cs2, h => by
    simp only [structEqListB] at h
    cases hnt : nextTag cs2 with
    | some p => rw [hnt] at h; simp at h
    | none => rw [nextTag_none_removeList cs2 hnt]; rfl
  | .txt s :: cs1, cs2, h => by
    simp only [structEqListB] at h
    simp only [removeAttrsList]
    exact structEqList_remove cs1 cs2 h
  | .tag n1 a1 c1 :: cs1, cs2, h => by
    simp only [structEqListB] at h
    cases hnt : nextTag cs2 with
    | none => rw [hnt] at h; simp at h
    | some p =>
      obtain ⟨t2, rest2⟩ := p
      rw [hnt] at h
      simp only [Bool.and_eq_true] at h
      obtain ⟨hh, ht⟩ := h
      rw [nextTag_some_removeList cs2 t2 rest2 hnt]
      simp only [removeAttrsList]
      rw [structEq_remove (.tag n1 a1 c1) t2 hh,
          structEqList_remove cs1 rest2 ht]
end

theorem sig_cleanRepeated (c : HNode) : sigOf (cleanRepeated c) = sigOf c := by
  cases c with
  | txt s => rfl
  | tag n a cs => rfl

theorem countSig_cleanChildren :
    ∀ (cs : List HNode) (seen : List (String × List (String × String)))
      (sg : String × List (String × String)),
      countSig (cleanChildren cs seen) sg =
        if sg ∉ seen ∧ ∃ c ∈ cs, sigOf c = some sg then 1 else 0 := by
  intro cs
  induction cs with
  | nil => intro seen sg; simp [cleanChildren, countSig]
  | cons c ts ih =>
    intro seen sg
    cases c with
    | txt s =>
      rw [show cleanChildren (HNode.txt s :: ts) seen = cleanChildren ts seen
        from rfl]
      rw [ih seen sg]
      have hiff : (sg ∉ seen ∧ ∃ c ∈ ts, sigOf c = some sg) ↔
          (sg ∉ seen ∧ ∃ c ∈ HNode.txt s :: ts, sigOf c = some sg) := by
        simp [sigOf]
      rw [if_congr hiff rfl rfl]
    | tag n a cs2 =>
      by_cases hm : (n, sortedAttrs a) ∈ seen
      · rw [show cleanChildren (HNode.tag n a cs2 :: ts) seen =
            cleanChildren ts seen by simp [cleanChildren, hm]]
        rw [ih seen sg]
        by_cases hsg : sg = (n, sortedAttrs a)
        · rw [if_neg (by subst hsg; simp [hm]),
              if_neg (by subst hsg; simp [hm])]
        · have hiff : (sg ∉ seen ∧ ∃ c ∈ ts, sigOf c = some sg) ↔
              (sg ∉ seen ∧ ∃ c ∈ HNode.tag n a cs2 :: ts,
                sigOf c = some sg) := by
            refine and_congr_right fun _ => ?_
            simp only [List.mem_cons]
            constructor
            · rintro ⟨c, hc, hs2⟩
              exact ⟨c, Or.inr hc, hs2⟩
            · rintro ⟨c, hc | hc, hs2⟩
              · exfalso
                subst hc
                simp only [sigOf] at hs2
                injection hs2 with hs3
                exact hsg hs3.symm
              · exact ⟨c, hc, hs2⟩
          rw [if_congr hiff rfl rfl]
      · rw [show cleanChildren (HNode.tag n a cs2 :: ts) seen =
            cleanRepeated (HNode.tag n a cs2) ::
              cleanChildren ts ((n, sortedAttrs a) :: seen)
          by simp [cleanChildren, hm]]
        unfold countSig
        rw [List.countP_cons]
        have hs := sig_cleanRepeated (HNode.tag n a cs2)
        have iht := ih ((n, sortedAttrs a) :: seen) sg
        unfold countSig at iht
        rw [iht]
        by_cases hsg : sg = (n, sortedAttrs a)
        · subst hsg
          have hhead : (sigOf (cleanRepeated (HNode.tag n a cs2)) ==
              some (n, sortedAttrs a)) = true := by
            rw [hs]; simp [sigOf]
          rw [hhead]
          simp [sigOf, hm]
        · have hhead : (sigOf (cleanRepeated (HNode.tag n a cs2)) ==
              some sg) = false := by
            rw [hs]
            simp only [sigOf, beq_eq_false_iff_ne, ne_eq,
              Option.some.injEq]
            exact fun hh => hsg hh.symm
          rw [hhead]
          have hmem : (sg ∈ (n, sortedAttrs a) :: seen) ↔ sg ∈ seen := by
            simp [hsg]
          have hex : (∃ c ∈ HNode.tag n a cs2 :: ts, sigOf c = some sg) ↔
              (∃ c ∈ ts, sigOf c = some sg) := by
            simp only [List.mem_cons]
            constructor
            · rintro ⟨c, hc | hc, hs2⟩
              · exfalso
                subst hc
                simp only [sigOf] at hs2
                injection hs2 with hs3
                exact hsg hs3.symm
              · exact ⟨c, hc, hs2⟩
            · rintro ⟨c, hc, hs2⟩
              exact ⟨c, Or.inr hc, hs2⟩
          have hns : ¬ sigOf (HNode.tag n a cs2) = some sg := by
            simp only [sigOf, Option.some.injEq]
            exact fun hh => hsg hh.symm
          simp [hmem, hex, hns]

/-- C4 (amended): two trees identical in tag names and resource
identifiers position-for-position (text and other attributes free)
produce equal skeletons; and among any node's children the cleaning pass
retains exactly one representative per shallow signature — the first
occurrence — so a run of N structurally-identical consecutive siblings
collapses to one representative, but that representative sits at the
position of the first sibling with that signature, which may precede the
run. -/
theorem C4_skeleton_equiv :
    (∀ t1 t2 : HNode, structEqB t1 t2 = true →
      skeletonOfTree t1 = skeletonOfTree t2) ∧
    (∀ (cs : List HNode) (sg : String × List (String × String)),
      countSig (cleanChildren cs []) sg =
        if ∃ c ∈ cs, sigOf c = some sg then 1 else 0) := by
  constructor
  · intro t1 t2 h
    unfold skeletonOfTree
    rw [structEq_remove t1 t2 h]
  · intro cs sg
    rw [countSig_cleanChildren cs [] sg]
    simp

/-- C4 witness: equal skeletons for two trees differing only in text
and non-identifier attributes. -/
theorem C4_witness :
    skeletonOfTree (HNode.tag "x" [("a", "1"), ("resource_id", "r")]
      [HNode.txt "t", HNode.tag "div" [] []]) =
    skeletonOfTree (HNode.tag "x" [("resource_id", "r"), ("b", "2")]
      [HNode.tag "div" [] []]) :=
  C4_skeleton_equiv.1 _ _ (by decide)

/-- C4 counterexample: children [A, B, A, A]: the code's cleaning keeps
[A, B] (the trailing run of identical A-siblings merges into the earlier
non-adjacent A), while collapsing only consecutive runs — the claim's
"exactly one representative child at that position" — would keep
[A, B, A]. -/
theorem C4_counterexample :
    skeletonOfTree c4P = HNode.tag "d" [] [c4A, c4B] ∧
    specCollapse c4P = HNode.tag "d" [] [c4A, c4B, c4A] ∧
    skeletonOfTree c4P ≠ specCollapse c4P := by decide

theorem buildTree_inv {fuel : Nat} {m : RawMap} {validIds : List Nat}
    {rootId : Nat} {T : BuiltTree}
    (h : buildTree fuel m validIds rootId = some T) :
    ∃ sh emap rsh,
      buildShape m fuel rootId = some sh ∧
      (pairsOf sh).mapM (remapOne m (ixOf sh)) = some emap ∧
      relabel (ixOf sh) sh = some rsh ∧
      T.root = dropInvalid (validOf sh validIds) (annotate rsh) ∧
      T.eleMap = emap ∧
      T.valid = validOf sh validIds ∧
      T.idxPairs = pairsOf sh := by
  unfold buildTree at h
  split at h
  · cases h
  · next sh h1 =>
    split at h
    · cases h
    · next emap h2 =>
      split at h
      · cases h
      · next rsh h3 =>
        injection h with h4
        refine ⟨sh, emap, rsh, h1, h2, h3, ?_, ?_, ?_, ?_⟩ <;> rw [← h4]

theorem dropList_eq_map (v : Finset Nat) :
    ∀ cs : List LNode, dropList v cs = cs.map (dropInvalid v) := by
  intro cs
  induction cs with
  | nil => rfl
  | cons c ts ih => rw [dropList, List.map_cons, ih]

mutual
theorem drop_nodes_ok : ∀ (t : LNode) (v : Finset Nat),
    ∀ n ∈ nodesL (dropInvalid v t), n.lv ⊆ v ∧ (n.lv = ∅ → n.ch = [])
  | .node i lv cs, v, n, hn => by
    unfold dropInvalid at hn
    split at hn
    · simp only [nodesL, nodesLList, List.mem_singleton] at hn
      subst hn
      exact ⟨by simp [LNode.lv], fun _ => rfl⟩
    · next hne =>
      rw [nodesL] at hn
      rcases List.mem_cons.1 hn with rfl | hn2
      · refine ⟨?_, ?_⟩
        · show lv ∩ v ⊆ v
          exact Finset.inter_subset_right
        · intro hz
          exact absurd hz hne
      · exact drop_nodesList_ok cs v n hn2
theorem drop_nodesList_ok : ∀ (cs : List LNode) (v : Finset Nat),
    ∀ n ∈ nodesLList (dropList v cs), n.lv ⊆ v ∧ (n.lv = ∅ → n.ch = [])
  | [], v, n, hn => by simp [dropList, nodesLList] at hn
  | c :: cs, v, n, hn => by
    rw [dropList, nodesLList] at hn
    rcases List.mem_append.1 hn with h1 | h2
    · exact drop_nodes_ok c v n h1
    · exact drop_nodesList_ok cs v n h2
end

/-- C2 (amended): pruning never removes the root (the pruned node keeps
its id); every retained node's leaf set is contained in the valid-id
set, and a retained node with an empty leaf set has no children — but
retained leaf nodes and pruned husk nodes do carry the empty leaf set,
so "every retained node has a non-empty leaf set" fails; a node whose
leaf set meets the valid set keeps `leaves ∩ valid` and recursively
prunes its children, while a node whose leaf set misses the valid set
has its children and leaf set cleared (the node itself stays in its
parent's child list). -/
theorem C2_pruning (fuel : Nat) (m : RawMap) (v : List Nat) (r : Nat)
    (T : BuiltTree) (hT : buildTree fuel m v r = some T) :
    (∀ (w : Finset Nat) (t : LNode), (dropInvalid w t).nid = t.nid) ∧
    (∀ n ∈ nodesL T.root, n.lv ⊆ T.valid ∧ (n.lv = ∅ → n.ch = [])) ∧
    (∀ (w : Finset Nat) (i : Nat) (lv : Finset Nat) (cs : List LNode),
      (lv ∩ w = ∅ → dropInvalid w (.node i lv cs) = .node i ∅ []) ∧
      (lv ∩ w ≠ ∅ → dropInvalid w (.node i lv cs) =
        .node i (lv ∩ w) (cs.map (dropInvalid w)))) := by
  refine ⟨?_, ?_, ?_⟩
  · intro w t
    cases t with
    | node i lv cs =>
      unfold dropInvalid
      split <;> rfl
  · obtain ⟨sh, emap, rsh, h1, h2, h3, hroot, hele, hvalid, hidx⟩ :=
      buildTree_inv hT
    rw [hroot, hvalid]
    exact drop_nodes_ok (annotate rsh) (validOf sh v)
  · intro w i lv cs
    constructor
    · intro hz
      unfold dropInvalid
      rw [if_pos hz]
    · intro hz
      unfold dropInvalid
      rw [if_neg hz, dropList_eq_map]

/-- C2 witness: the amended pruning invariants applied to the concrete
two-node build. -/
theorem C2_witness :
    (dropInvalid (∅ : Finset Nat) (LNode.node 5 ∅ [])).nid =
      (LNode.node 5 ∅ []).nid :=
  (C2_pruning 9 c2m [1] 0 c2T (by decide)).1 ∅ (LNode.node 5 ∅ [])

/-- C2 counterexample: in the two-node tree (root over one valid leaf),
the retained leaf node has an empty `leaves` set, refuting "every
retained node has a non-empty leaf set". -/
theorem C2_counterexample :
    buildTree 9 c2m [1] 0 = some c2T ∧
    ¬ (∀ n ∈ nodesL c2T.root, n.lv ≠ ∅) := by decide

theorem optionMapM_cons (f : α → Option β) (a : α) (l : List α) :
    (a :: l).mapM f =
      (f a).bind (fun b => (l.mapM f).bind (fun bs => some (b :: bs))) := by
  rw [← List.mapM'_eq_mapM, ← List.mapM'_eq_mapM]
  rfl

theorem optionMapM_nil (f : α → Option β) : ([] : List α).mapM f = some [] :=
  rfl

theorem mapM_some_forall (f : α → Option β) :
    ∀ (l : List α) (out : List β), l.mapM f = some out →
      List.Forall₂ (fun a b => f a = some b) l out := by
  intro l
  induction l with
  | nil =>
    intro out h
    rw [optionMapM_nil] at h
    injection h with h2
    subst h2
    exact .nil
  | cons a as ih =>
    intro out h
    rw [optionMapM_cons] at h
    cases hf : f a with
    | none => rw [hf] at h; simp at h
    | some b =>
      rw [hf] at h
      cases hm : as.mapM f with
      | none => rw [hm] at h; simp at h
      | some bs =>
        rw [hm] at h
        simp only [Option.bind] at h
        injection h with h2
        subst h2
        exact .cons hf (ih bs hm)

theorem forall_mapM_some (f : α → Option β) :
    ∀ {l : List α} {out : List β},
      List.Forall₂ (fun a b => f a = some b) l out → l.mapM f = some out := by
  intro l out h
  induction h with
  | nil => rfl
  | cons hf _ ih =>
    rw [optionMapM_cons, hf, ih]
    rfl

theorem optionMapM_congr (f g : α → Option β) :
    ∀ l : List α, (∀ a ∈ l, f a = g a) → l.mapM f = l.mapM g := by
  intro l
  induction l with
  | nil => intro _; rfl
  | cons a as ih =>
    intro h
    rw [optionMapM_cons, optionMapM_cons, h a (List.mem_cons_self _ _),
      ih (fun b hb => h b (List.mem_cons_of_mem _ hb))]

theorem optionMapM_append (f : α → Option β) :
    ∀ l1 l2 : List α,
      (l1 ++ l2).mapM f =
        (l1.mapM f).bind (fun b1 =>
          (l2.mapM f).bind (fun b2 => some (b1 ++ b2))) := by
  intro l1
  induction l1 with
  | nil =>
    intro l2
    rw [List.nil_append, optionMapM_nil]
    cases l2.mapM f <;> rfl
  | cons a as ih =>
    intro l2
    rw [List.cons_append, optionMapM_cons, optionMapM_cons, ih]
    cases f a with
    | none => rfl
    | some b =>
      simp only [Option.some_bind]
      cases as.mapM f with
      | none => rfl
      | some bs =>
        simp only [Option.some_bind]
        cases l2.mapM f <;> rfl

theorem lookupFirst_of_mem_nodup {l : List (Nat × α)}
    (hnd : (l.map Prod.fst).Nodup) {p : Nat × α} (hp : p ∈ l) :
    lookupFirst l p.1 = some p.2 := by
  induction l with
  | nil => cases hp
  | cons q qs ih =>
    rcases List.mem_cons.1 hp with rfl | hp2
    · unfold lookupFirst
      rw [if_pos rfl]
    · rw [List.map_cons, List.nodup_cons] at hnd
      have hne : q.1 ≠ p.1 := by
        intro he
        exact hnd.1 (he ▸ List.mem_map_of_mem Prod.fst hp2)
      unfold lookupFirst
      rw [if_neg hne]
      exact ih hnd.2 hp2

theorem lookupFirst_cons (q : Nat × α) (qs : List (Nat × α)) (k : Nat) :
    lookupFirst (q :: qs) k = if q.1 = k then some q.2 else lookupFirst qs k :=
  rfl

theorem lookupFirst_append (l1 l2 : List (Nat × α)) (k : Nat) :
    lookupFirst (l1 ++ l2) k =
      match lookupFirst l1 k with
      | some v => some v
      | none => lookupFirst l2 k := by
  induction l1 with
  | nil => rfl
  | cons p ps ih =>
    by_cases hk : p.1 = k
    · rw [List.cons_append, lookupFirst_cons, lookupFirst_cons,
        if_pos hk, if_pos hk]
    · rw [List.cons_append, lookupFirst_cons, lookupFirst_cons,
        if_neg hk, if_neg hk, ih]

theorem lookupLast_eq_lookupFirst {l : List (Nat × α)}
    (hnd : (l.map Prod.fst).Nodup) (k : Nat) :
    lookupLast l k = lookupFirst l k := by
  induction l with
  | nil => rfl
  | cons p ps ih =>
    rw [List.map_cons, List.nodup_cons] at hnd
    unfold lookupLast
    rw [List.reverse_cons, lookupFirst_append]
    by_cases hk : p.1 = k
    · have hnone : lookupFirst ps.reverse k = none := by
        rw [lookupFirst_eq_none_iff]
        intro q hq hqk
        exact hnd.1 (hk ▸ hqk ▸
          List.mem_map_of_mem Prod.fst (List.mem_reverse.1 hq))
      rw [hnone]
      rw [lookupFirst_cons, lookupFirst_cons, if_pos hk, if_pos hk]
    · have ih2 := ih hnd.2
      unfold lookupLast at ih2
      cases hx : lookupFirst ps.reverse k with
      | some v =>
        show some v = lookupFirst (p :: ps) k
        rw [lookupFirst_cons, if_neg hk, ← ih2, hx]
      | none =>
        show lookupFirst [p] k = lookupFirst (p :: ps) k
        rw [lookupFirst_cons, lookupFirst_cons, if_neg hk, if_neg hk,
          ← ih2, hx]
        rfl

theorem remapOne_inv {m : RawMap} {ix : Nat → Option Nat} {p : Nat × Nat}
    {q : Nat × Ele} (h : remapOne m ix p = some q) :
    ∃ e cs, lookupFirst m p.1 = some e ∧ e.children.mapM ix = some cs ∧
      q = (p.2, { id := p.2, children := cs, scrollable := e.scrollable,
                  ty := e.ty, text := e.text }) := by
  unfold remapOne at h
  split at h
  · cases h
  · next e he =>
    cases hcs : e.children.mapM ix with
    | none => rw [hcs] at h; cases h
    | some cs =>
      rw [hcs] at h
      simp only [Option.map] at h
      injection h with h2
      exact ⟨e, cs, he, hcs, h2.symm⟩

theorem forall₂_get {α β : Type} {R : α → β → Prop} :
    ∀ {l1 : List α} {l2 : List β}, List.Forall₂ R l1 l2 →
      ∀ i (h1 : i < l1.length) (h2 : i < l2.length),
        R (l1.get ⟨i, h1⟩) (l2.get ⟨i, h2⟩) := by
  intro l1 l2 h
  induction h with
  | nil => intro i h1 _; exact absurd h1 (Nat.not_lt_zero i)
  | cons hr _ ih =>
    intro i h1 h2
    cases i with
    | zero => exact hr
    | succ j =>
      exact ih j (Nat.lt_of_succ_lt_succ h1) (Nat.lt_of_succ_lt_succ h2)

theorem srtOf_perm (sh : BTree) : (srtOf sh).Perm (preorder sh) :=
  List.perm_insertionSort _ _

theorem srtOf_length (sh : BTree) :
    (srtOf sh).length = (preorder sh).length :=
  (srtOf_perm sh).length_eq

theorem srtOf_nodup {sh : BTree} (hnd : (preorder sh).Nodup) :
    (srtOf sh).Nodup :=
  (srtOf_perm sh).symm.nodup hnd

theorem pairsOf_map_snd (sh : BTree) :
    (pairsOf sh).map Prod.snd = srtOf sh :=
  List.map_snd_zip _ _ (le_of_eq (srtOf_length sh))

theorem emap_keys_eq (m : RawMap) (ix : Nat → Option Nat) :
    ∀ {ps : List (Nat × Nat)} {emap : List (Nat × Ele)},
      List.Forall₂ (fun p q => remapOne m ix p = some q) ps emap →
      emap.map Prod.fst = ps.map Prod.snd := by
  intro ps emap h
  induction h with
  | nil => rfl
  | cons hr _ ih =>
    obtain ⟨e, cs, _, _, hq⟩ := remapOne_inv hr
    rw [List.map_cons, List.map_cons, ih, hq]

theorem buildShape_succ (m : RawMap) (fl i : Nat) :
    buildShape m (fl + 1) i =
      match lookupFirst m i with
      | none => none
      | some e =>
        (((e.children.filterMap (fun c => lookupFirst m c)).map Ele.id).mapM
          (buildShape m fl)).map (BTree.node i) :=
  rfl

theorem buildShape_congr (m1 m2 : RawMap)
    (hm : ∀ k, lookupFirst m2 k = lookupFirst m1 k) :
    ∀ fuel i, buildShape m2 fuel i = buildShape m1 fuel i := by
  intro fuel
  induction fuel with
  | zero => intro i; rfl
  | succ fl ih =>
    intro i
    rw [buildShape_succ, buildShape_succ, hm i]
    split
    · rfl
    · next e heq =>
      have hfm : e.children.filterMap (fun c => lookupFirst m2 c) =
          e.children.filterMap (fun c => lookupFirst m1 c) :=
        List.filterMap_congr (fun c _ => hm c)
      rw [hfm, optionMapM_congr _ _ _ (fun a _ => ih a)]

theorem remapOne_congr (m1 m2 : RawMap) (ix : Nat → Option Nat)
    (hm : ∀ k, lookupFirst m2 k = lookupFirst m1 k) (p : Nat × Nat) :
    remapOne m2 ix p = remapOne m1 ix p := by
  unfold remapOne
  rw [hm p.1]

theorem buildTree_congr (fuel : Nat) (m1 m2 : RawMap) (v : List Nat) (r : Nat)
    (hm : ∀ k, lookupFirst m2 k = lookupFirst m1 k) :
    buildTree fuel m2 v r = buildTree fuel m1 v r := by
  unfold buildTree
  rw [buildShape_congr m1 m2 hm fuel r]
  split
  · rfl
  · next sh heq =>
    rw [optionMapM_congr _ _ _
      (fun p _ => remapOne_congr m1 m2 (ixOf sh) hm p)]

theorem lookupLast_mem {l : List (Nat × α)} {k : Nat} {v : α}
    (h : lookupLast l k = some v) : (k, v) ∈ l := by
  unfold lookupLast at h
  exact List.mem_reverse.1 (lookupFirst_mem h)

theorem lookupFirst_isSome_of_mem_keys {l : List (Nat × α)} {k : Nat}
    (h : k ∈ l.map Prod.fst) : ∃ v, lookupFirst l k = some v := by
  cases hx : lookupFirst l k with
  | some v => exact ⟨v, rfl⟩
  | none =>
    obtain ⟨p, hp, hpk⟩ := List.mem_map.1 h
    exact absurd hpk ((lookupFirst_eq_none_iff _ _).1 hx p hp)

theorem forall₂_mem_left {α β : Type} {R : α → β → Prop} :
    ∀ {l1 : List α} {l2 : List β}, List.Forall₂ R l1 l2 →
      ∀ {a}, a ∈ l1 → ∃ b, b ∈ l2 ∧ R a b := by
  intro l1 l2 h
  induction h with
  | nil => intro a ha; cases ha
  | cons hr _ ih =>
    intro a ha
    rcases List.mem_cons.1 ha with rfl | ha2
    · exact ⟨_, List.mem_cons_self _ _, hr⟩
    · obtain ⟨b, hb, hRb⟩ := ih ha2
      exact ⟨b, List.mem_cons_of_mem _ hb, hRb⟩

theorem forall₂_mem_right {α β : Type} {R : α → β → Prop} :
    ∀ {l1 : List α} {l2 : List β}, List.Forall₂ R l1 l2 →
      ∀ {b}, b ∈ l2 → ∃ a, a ∈ l1 ∧ R a b := by
  intro l1 l2 h
  induction h with
  | nil => intro b hb; cases hb
  | cons hr _ ih =>
    intro b hb
    rcases List.mem_cons.1 hb with rfl | hb2
    · exact ⟨_, List.mem_cons_self _ _, hr⟩
    · obtain ⟨a, ha, hRa⟩ := ih hb2
      exact ⟨a, List.mem_cons_of_mem _ ha, hRa⟩

theorem forall₂_eq_of {α : Type} {R : α → α → Prop}
    (hdeg : ∀ (a : α) (b : α), R a b → b = a) :
    ∀ {l1 l2 : List α}, List.Forall₂ R l1 l2 → l2 = l1 := by
  intro l1 l2 h
  induction h with
  | nil => rfl
  | cons hr _ ih => rw [ih, hdeg _ _ hr]

theorem mem_zip_self {α : Type} : ∀ {l : List α} {p : α × α},
    p ∈ l.zip l → p.2 = p.1 := by
  intro l
  induction l with
  | nil => intro p hp; cases hp
  | cons a as ih =>
    intro p hp
    rcases List.mem_cons.1 hp with rfl | hp2
    · rfl
    · exact ih hp2

theorem zip_self_mem {α : Type} : ∀ {l : List α} {k : α},
    k ∈ l → (k, k) ∈ l.zip l := by
  intro l
  induction l with
  | nil => intro k hk; cases hk
  | cons a as ih =>
    intro k hk
    rcases List.mem_cons.1 hk with rfl | hk2
    · exact List.mem_cons_self _ _
    · exact List.mem_cons_of_mem _ (ih hk2)

theorem lookupFirst_zip_self {l : List Nat} (hnd : l.Nodup) {k : Nat}
    (hk : k ∈ l) : lookupFirst (l.zip l) k = some k := by
  have hfst : (l.zip l).map Prod.fst = l :=
    List.map_fst_zip l l (le_refl _)
  exact lookupFirst_of_mem_nodup (by rw [hfst]; exact hnd) (zip_self_mem hk)

theorem lookupFirst_zip_self_none {l : List Nat} {k : Nat}
    (hk : k ∉ l) : lookupFirst (l.zip l) k = none := by
  rw [lookupFirst_eq_none_iff]
  intro p hp hpk
  have h1 : p.1 ∈ (l.zip l).map Prod.fst := List.mem_map_of_mem _ hp
  rw [List.map_fst_zip l l (le_refl _)] at h1
  exact hk (hpk ▸ h1)

theorem buildShape_root {em : List (Nat × Ele)} {f k : Nat} {s : BTree}
    (h : buildShape em f k = some s) : ∃ cs, s = BTree.node k cs := by
  cases f with
  | zero => cases h
  | succ fl =>
    rw [buildShape_succ] at h
    split at h
    · cases h
    · next e heq =>
      cases hms : (((e.children.filterMap (fun c => lookupFirst em c)).map
          Ele.id).mapM (buildShape em fl)) with
      | none => rw [hms] at h; cases h
      | some shs =>
        rw [hms] at h
        injection h with h2
        exact ⟨shs, h2.symm⟩

theorem filterMap_lookup_total {em : List (Nat × Ele)} :
    ∀ {li : List Nat},
      (∀ c ∈ li, ∃ ce, lookupFirst em c = some ce ∧ ce.id = c) →
      (li.filterMap (fun c => lookupFirst em c)).map Ele.id = li := by
  intro li
  induction li with
  | nil => intro _; rfl
  | cons c cs ih =>
    intro h
    obtain ⟨ce, hce, hceid⟩ := h c (List.mem_cons_self _ _)
    rw [List.filterMap_cons, hce, List.map_cons, hceid,
      ih (fun d hd => h d (List.mem_cons_of_mem _ hd))]

theorem pairsOf_map_fst (sh : BTree) :
    (pairsOf sh).map Prod.fst = preorder sh :=
  List.map_fst_zip _ _ (le_of_eq (srtOf_length sh).symm)

mutual
theorem relabel_preorder (f : Nat → Option Nat) :
    ∀ (t t2 : BTree), relabel f t = some t2 →
      (preorder t).mapM f = some (preorder t2)
  | .node i cs, t2, h => by
    unfold relabel at h
    cases hj : f i with
    | none => rw [hj] at h; cases h
    | some j =>
      rw [hj] at h
      cases hds : relabelList f cs with
      | none => rw [hds] at h; cases h
      | some ds =>
        rw [hds] at h
        injection h with h2
        subst h2
        show (i :: preorderList cs).mapM f = some (j :: preorderList ds)
        rw [optionMapM_cons, hj, relabelList_preorder f cs ds hds]
        rfl
theorem relabelList_preorder (f : Nat → Option Nat) :
    ∀ (ts ts2 : List BTree), relabelList f ts = some ts2 →
      (preorderList ts).mapM f = some (preorderList ts2)
  | [], ts2, h => by
    unfold relabelList at h
    injection h with h2
    subst h2
    rfl
  | t :: ts, ts2, h => by
    unfold relabelList at h
    cases hu : relabel f t with
    | none => rw [hu] at h; cases h
    | some u =>
      rw [hu] at h
      cases hus : relabelList f ts with
      | none => rw [hus] at h; cases h
      | some us =>
        rw [hus] at h
        injection h with h2
        subst h2
        show (preorder t ++ preorderList ts).mapM f =
          some (preorder u ++ preorderList us)
        rw [optionMapM_append, relabel_preorder f t u hu,
          relabelList_preorder f ts us hus]
        rfl
end

theorem ixOf_mem_pairs {sh : BTree} (hnd : (preorder sh).Nodup) :
    ∀ {p : Nat × Nat}, p ∈ pairsOf sh → ixOf sh p.1 = some p.2 := by
  intro p hp
  unfold ixOf
  rw [lookupLast_eq_lookupFirst (by rw [pairsOf_map_fst]; exact hnd)]
  exact lookupFirst_of_mem_nodup (by rw [pairsOf_map_fst]; exact hnd) hp

theorem ixOf_eq_srt {sh : BTree} (hnd : (preorder sh).Nodup) :
    (preorder sh).mapM (ixOf sh) = some (srtOf sh) := by
  apply forall_mapM_some
  rw [List.forall₂_iff_zip]
  refine ⟨(srtOf_length sh).symm, ?_⟩
  intro o j hm
  exact ixOf_mem_pairs hnd hm

theorem emap_id {m : RawMap} {sh : BTree} {emap : List (Nat × Ele)}
    (hF : List.Forall₂ (fun p q => remapOne m (ixOf sh) p = some q)
      (pairsOf sh) emap) :
    ∀ q ∈ emap, q.2.id = q.1 := by
  intro q hq
  obtain ⟨p, _, hR⟩ := forall₂_mem_right hF hq
  obtain ⟨e, cs, _, _, hqe⟩ := remapOne_inv hR
  rw [hqe]

theorem emap_closed {m : RawMap} {sh : BTree} {emap : List (Nat × Ele)}
    (hF : List.Forall₂ (fun p q => remapOne m (ixOf sh) p = some q)
      (pairsOf sh) emap) :
    ∀ q ∈ emap, ∀ c ∈ q.2.children, c ∈ emap.map Prod.fst := by
  intro q hq c hc
  obtain ⟨p, hpmem, hR⟩ := forall₂_mem_right hF hq
  obtain ⟨e, cs, he, hcs, hqe⟩ := remapOne_inv hR
  rw [hqe] at hc
  have hFc := mapM_some_forall _ _ _ hcs
  obtain ⟨a, _, hax⟩ := forall₂_mem_right hFc hc
  unfold ixOf at hax
  have hmem : (a, c) ∈ pairsOf sh := lookupLast_mem hax
  have hsnd : c ∈ (pairsOf sh).map Prod.snd := List.mem_map_of_mem _ hmem
  rw [pairsOf_map_snd] at hsnd
  rw [emap_keys_eq m (ixOf sh) hF, pairsOf_map_snd]
  exact hsnd

theorem buildShape_mono (em : List (Nat × Ele)) :
    ∀ (f : Nat) {k : Nat} {s : BTree}, buildShape em f k = some s →
      buildShape em (f + 1) k = some s := by
  intro f
  induction f with
  | zero => intro k s h; cases h
  | succ fl ih =>
    intro k s h
    rw [buildShape_succ] at h
    rw [buildShape_succ]
    split at h
    · cases h
    · next e heq =>
      cases hms : (((e.children.filterMap (fun c => lookupFirst em c)).map
          Ele.id).mapM (buildShape em fl)) with
      | none => rw [hms] at h; cases h
      | some shs =>
        rw [hms] at h
        have hl := mapM_some_forall _ _ _ hms
        have hl2 : ((e.children.filterMap (fun c => lookupFirst em c)).map
            Ele.id).mapM (buildShape em (fl + 1)) = some shs :=
          forall_mapM_some _ (List.Forall₂.imp (fun _ _ hx => ih hx) hl)
        rw [hl2]
        exact h

theorem buildShape_fuel_le (em : List (Nat × Ele)) {f f2 : Nat}
    (hle : f ≤ f2) :
    ∀ {k : Nat} {s : BTree}, buildShape em f k = some s →
      buildShape em f2 k = some s := by
  induction hle with
  | refl => intro k s h; exact h
  | step h2 ih => intro k s h; exact buildShape_mono em _ (ih h)

theorem buildShape_det (em : List (Nat × Ele)) {f f2 k : Nat} {s s2 : BTree}
    (h1 : buildShape em f k = some s) (h2 : buildShape em f2 k = some s2) :
    s = s2 := by
  rcases Nat.le_total f f2 with hle | hle
  · have h3 := buildShape_fuel_le em hle h1
    rw [h3] at h2
    injection h2
  · have h3 := buildShape_fuel_le em hle h2
    rw [h3] at h1
    injection h1 with h4
    exact h4.symm

theorem mem_preorderList {j : Nat} : ∀ {ts : List BTree},
    j ∈ preorderList ts → ∃ t, t ∈ ts ∧ j ∈ preorder t := by
  intro ts
  induction ts with
  | nil => intro h; simp only [preorderList] at h; cases h
  | cons t ts ih =>
    intro h
    simp only [preorderList] at h
    rcases List.mem_append.1 h with h1 | h2
    · exact ⟨t, List.mem_cons_self _ _, h1⟩
    · obtain ⟨u, hu, hju⟩ := ih h2
      exact ⟨u, List.mem_cons_of_mem _ hu, hju⟩

theorem preorder_sublist_of_mem {sc : BTree} : ∀ {ts : List BTree},
    sc ∈ ts → (preorder sc).Sublist (preorderList ts) := by
  intro ts
  induction ts with
  | nil => intro h; cases h
  | cons t ts ih =>
    intro h
    rcases List.mem_cons.1 h with rfl | h2
    · show (preorder sc).Sublist (preorder sc ++ preorderList ts)
      exact List.sublist_append_left _ _
    · show (preorder sc).Sublist (preorder t ++ preorderList ts)
      exact (ih h2).trans (List.sublist_append_right _ _)

theorem buildShape_preorder_keys (em : List (Nat × Ele)) :
    ∀ (f : Nat) {k : Nat} {s : BTree}, buildShape em f k = some s →
      ∀ j ∈ preorder s, ∃ e, lookupFirst em j = some e := by
  intro f
  induction f with
  | zero => intro k s h; cases h
  | succ fl ih =>
    intro k s h j hj
    rw [buildShape_succ] at h
    split at h
    · cases h
    · next e heq =>
      cases hms : (((e.children.filterMap (fun c => lookupFirst em c)).map
          Ele.id).mapM (buildShape em fl)) with
      | none => rw [hms] at h; cases h
      | some shs =>
        rw [hms] at h
        have hs : BTree.node k shs = s := by simpa using h
        subst hs
        have hj2 : j ∈ k :: preorderList shs := hj
        rcases List.mem_cons.1 hj2 with rfl | hmem
        · exact ⟨e, heq⟩
        · obtain ⟨sc, hsc, hjsc⟩ := mem_preorderList hmem
          have hFa := mapM_some_forall _ _ _ hms
          obtain ⟨c, _, hbc⟩ := forall₂_mem_right hFa hsc
          exact ih hbc j hjsc

theorem buildShape_subtree (em : List (Nat × Ele)) :
    ∀ (f : Nat) {k : Nat} {s : BTree}, buildShape em f k = some s →
      ∀ i ∈ preorder s, ∃ s2, buildShape em f i = some s2 ∧
        (preorder s2).Sublist (preorder s) := by
  intro f
  induction f with
  | zero => intro k s h; cases h
  | succ fl ih =>
    intro k s h i hi
    have hroot := h
    rw [buildShape_succ] at h
    split at h
    · cases h
    · next e heq =>
      cases hms : (((e.children.filterMap (fun c => lookupFirst em c)).map
          Ele.id).mapM (buildShape em fl)) with
      | none => rw [hms] at h; cases h
      | some shs =>
        rw [hms] at h
        have hs : BTree.node k shs = s := by simpa using h
        subst hs
        have hi2 : i ∈ k :: preorderList shs := hi
        rcases List.mem_cons.1 hi2 with rfl | hmem
        · exact ⟨_, hroot, List.Sublist.refl _⟩
        · obtain ⟨sc, hsc, hisc⟩ := mem_preorderList hmem
          have hFa := mapM_some_forall _ _ _ hms
          obtain ⟨c, _, hbc⟩ := forall₂_mem_right hFa hsc
          obtain ⟨s2, hb2, hsub⟩ := ih hbc i hisc
          refine ⟨s2, buildShape_mono em fl hb2, ?_⟩
          exact hsub.trans ((preorder_sublist_of_mem hsc).trans
            (List.sublist_cons_self _ _))

theorem build_relabel (m : RawMap) (sh : BTree) (emap : List (Nat × Ele))
    (fuel0 r : Nat)
    (hsh : buildShape m fuel0 r = some sh)
    (hnd : (preorder sh).Nodup)
    (hid : ∀ p ∈ m, p.2.id = p.1)
    (hF : List.Forall₂ (fun p q => remapOne m (ixOf sh) p = some q)
      (pairsOf sh) emap) :
    ∀ (f : Nat) {o : Nat} {shO : BTree} {nw : Nat},
      buildShape m f o = some shO → ixOf sh o = some nw →
      ∃ rshO, relabel (ixOf sh) shO = some rshO ∧
        buildShape emap f nw = some rshO := by
  have hkeysE : emap.map Prod.fst = srtOf sh := by
    rw [emap_keys_eq m (ixOf sh) hF, pairsOf_map_snd]
  have hknd : (emap.map Prod.fst).Nodup := by
    rw [hkeysE]; exact srtOf_nodup hnd
  have hidE : ∀ q ∈ emap, q.2.id = q.1 := emap_id hF
  intro f
  induction f with
  | zero => intro o shO nw h _; cases h
  | succ fl ih =>
    intro o shO nw h hix
    have hpair : (o, nw) ∈ pairsOf sh := by
      unfold ixOf at hix
      exact lookupLast_mem hix
    obtain ⟨q, hqmem, hq⟩ := forall₂_mem_left hF hpair
    obtain ⟨e, cs2, he, hcs2, hqe⟩ := remapOne_inv hq
    rw [buildShape_succ] at h
    split at h
    · cases h
    · next e0 heq0 =>
      have hee : e0 = e := by
        rw [heq0] at he
        injection he
      subst hee
      cases hms : (((e0.children.filterMap (fun c => lookupFirst m c)).map
          Ele.id).mapM (buildShape m fl)) with
      | none => rw [hms] at h; cases h
      | some shs =>
        rw [hms] at h
        have hs : BTree.node o shs = shO := by simpa using h
        subst hs
        have hFc : List.Forall₂ (fun c nc => ixOf sh c = some nc)
            e0.children cs2 := mapM_some_forall _ _ _ hcs2
        have hmkeys : ∀ c ∈ e0.children,
            ∃ ce, lookupFirst m c = some ce ∧ ce.id = c := by
          intro c hc
          obtain ⟨nc, _, hnc⟩ := forall₂_mem_left hFc hc
          have hcpre : c ∈ preorder sh := by
            have hp2 : (c, nc) ∈ pairsOf sh := by
              unfold ixOf at hnc
              exact lookupLast_mem hnc
            have h3 := List.mem_map_of_mem Prod.fst hp2
            rwa [pairsOf_map_fst] at h3
          obtain ⟨ce, hce⟩ := buildShape_preorder_keys m fuel0 hsh c hcpre
          exact ⟨ce, hce, hid (c, ce) (lookupFirst_mem hce)⟩
        have hLm : (e0.children.filterMap (fun c => lookupFirst m c)).map
            Ele.id = e0.children := filterMap_lookup_total hmkeys
        rw [hLm] at hms
        have hinner : ∀ (cl ncl : List Nat) (shs0 : List BTree),
            List.Forall₂ (fun c nc => ixOf sh c = some nc) cl ncl →
            cl.mapM (buildShape m fl) = some shs0 →
            ∃ shs2, relabelList (ixOf sh) shs0 = some shs2 ∧
              ncl.mapM (buildShape emap fl) = some shs2 := by
          intro cl
          induction cl with
          | nil =>
            intro ncl shs0 hF2 hmm
            cases hF2
            rw [optionMapM_nil] at hmm
            injection hmm with h2
            subst h2
            exact ⟨[], rfl, rfl⟩
          | cons c cl2 ihl =>
            intro ncl shs0 hF2 hmm
            cases hF2 with
            | cons hr htail =>
              next nc ncl2 =>
              rw [optionMapM_cons] at hmm
              cases hb1 : buildShape m fl c with
              | none => rw [hb1] at hmm; simp at hmm
              | some s1 =>
                rw [hb1] at hmm
                cases hrest : cl2.mapM (buildShape m fl) with
                | none => rw [hrest] at hmm; simp at hmm
                | some rest =>
                  rw [hrest] at hmm
                  simp only [Option.bind] at hmm
                  injection hmm with h2
                  subst h2
                  obtain ⟨rs1, hrel1, hbE1⟩ := ih hb1 hr
                  obtain ⟨rest2, hrel2, hbE2⟩ := ihl ncl2 rest htail hrest
                  refine ⟨rs1 :: rest2, ?_, ?_⟩
                  · unfold relabelList
                    rw [hrel1, hrel2]
                  · rw [optionMapM_cons, hbE1, hbE2]
                    rfl
        obtain ⟨shs2, hrelL, hbE⟩ := hinner e0.children cs2 shs hFc hms
        refine ⟨BTree.node nw shs2, ?_, ?_⟩
        · unfold relabel
          rw [hix, hrelL]
        · have hluE : lookupFirst emap nw =
              some { id := nw, children := cs2, scrollable := e0.scrollable,
                     ty := e0.ty, text := e0.text } := by
            have h1 := lookupFirst_of_mem_nodup hknd hqmem
            rw [hqe] at h1
            exact h1
          have hEkeys : ∀ nc ∈ cs2,
              ∃ ce, lookupFirst emap nc = some ce ∧ ce.id = nc := by
            intro nc hnc
            obtain ⟨c, _, hcx⟩ := forall₂_mem_right hFc hnc
            have hp2 : (c, nc) ∈ pairsOf sh := by
              unfold ixOf at hcx
              exact lookupLast_mem hcx
            have hsnd : nc ∈ (pairsOf sh).map Prod.snd :=
              List.mem_map_of_mem _ hp2
            rw [pairsOf_map_snd, ← hkeysE] at hsnd
            obtain ⟨ce, hce⟩ := lookupFirst_isSome_of_mem_keys hsnd
            exact ⟨ce, hce, hidE (nc, ce) (lookupFirst_mem hce)⟩
          rw [buildShape_succ, hluE]
          show (((cs2.filterMap (fun c => lookupFirst emap c)).map
              Ele.id).mapM (buildShape emap fl)).map (BTree.node nw) =
            some (BTree.node nw shs2)
          rw [filterMap_lookup_total hEkeys, hbE]
          rfl

theorem collectReachable_inv (em : List (Nat × Ele)) :
    ∀ (f : Nat) (que acc out : List Nat),
      collectReachable em f que acc = some out →
      (∀ a ∈ acc, a ∈ out) ∧
      (∀ x ∈ que, (∃ e, lookupFirst em x = some e) → x ∈ out) ∧
      (∀ k ∈ out, k ∉ acc → ∀ e, lookupFirst em k = some e →
        ∀ c ∈ e.children, (∃ e2, lookupFirst em c = some e2) → c ∈ out) := by
  intro f
  induction f with
  | zero =>
    intro que acc out h
    unfold collectReachable at h
    split at h
    · next hq =>
      injection h with h2
      subst h2
      subst hq
      refine ⟨fun a ha => ha, ?_, ?_⟩
      · intro x hx; cases hx
      · intro k hk hkacc
        exact absurd hk hkacc
    · cases h
  | succ fl ih =>
    intro que acc out h
    cases que with
    | nil =>
      unfold collectReachable at h
      injection h with h2
      subst h2
      refine ⟨fun a ha => ha, ?_, ?_⟩
      · intro x hx; cases hx
      · intro k hk hkacc
        exact absurd hk hkacc
    | cons x rest =>
      unfold collectReachable at h
      cases hx : lookupFirst em x with
      | none =>
        rw [hx] at h
        obtain ⟨I1, I2, I3⟩ := ih rest acc out h
        refine ⟨I1, ?_, I3⟩
        intro y hy hye
        rcases List.mem_cons.1 hy with rfl | hy2
        · obtain ⟨e, he⟩ := hye
          rw [hx] at he
          cases he
        · exact I2 y hy2 hye
      | some e =>
        rw [hx] at h
        obtain ⟨I1, I2, I3⟩ := ih (rest ++ e.children) (acc ++ [x]) out h
        refine ⟨?_, ?_, ?_⟩
        · intro a ha
          exact I1 a (List.mem_append.2 (Or.inl ha))
        · intro y hy hye
          rcases List.mem_cons.1 hy with rfl | hy2
          · exact I1 y (by simp)
          · exact I2 y (List.mem_append.2 (Or.inl hy2)) hye
        · intro k hk hkacc e2 he2 c hc hce
          by_cases hkx : k = x
          · subst hkx
            rw [hx] at he2
            injection he2 with h3
            subst h3
            exact I2 c (List.mem_append.2 (Or.inr hc)) hce
          · refine I3 k hk ?_ e2 he2 c hc hce
            intro hmem
            rcases List.mem_append.1 hmem with hmm | hmm
            · exact hkacc hmm
            · exact hkx (List.mem_singleton.1 hmm)

theorem collectReachable_closed (em : List (Nat × Ele)) (f i : Nat)
    (out : List Nat)
    (h : collectReachable em f [i] [] = some out)
    (hcl : ∀ q ∈ em, ∀ c ∈ q.2.children, ∃ e2, lookupFirst em c = some e2) :
    (∀ e, lookupFirst em i = some e → i ∈ out) ∧
    (∀ k ∈ out, ∀ e, lookupFirst em k = some e → ∀ c ∈ e.children,
      c ∈ out) := by
  obtain ⟨_, I2, I3⟩ := collectReachable_inv em f [i] [] out h
  refine ⟨fun e he => I2 i (List.mem_singleton.2 rfl) ⟨e, he⟩, ?_⟩
  intro k hk e he c hc
  exact I3 k hk (fun hff => by cases hff) e he c hc
    (hcl (k, e) (lookupFirst_mem he) c hc)

theorem subm_keys_sublist (bm : List (Nat × Ele)) :
    ∀ kd : List Nat,
      ((kd.filterMap
        (fun k => (lookupFirst bm k).map (fun e => (k, e)))).map
          Prod.fst).Sublist kd := by
  intro kd
  induction kd with
  | nil => exact List.Sublist.refl _
  | cons d kd2 ih =>
    rw [List.filterMap_cons]
    cases lookupFirst bm d with
    | none => exact ih.trans (List.sublist_cons_self _ _)
    | some ed =>
      simp only [Option.map]
      rw [List.map_cons]
      exact List.Sublist.cons₂ d ih

theorem subm_lookup_some (bm : List (Nat × Ele)) :
    ∀ (kd : List Nat) (k : Nat) (v : Ele),
      lookupFirst (kd.filterMap
        (fun j => (lookupFirst bm j).map (fun e => (j, e)))) k = some v →
      k ∈ kd ∧ lookupFirst bm k = some v := by
  intro kd
  induction kd with
  | nil => intro k v h; cases h
  | cons d kd2 ih =>
    intro k v h
    rw [List.filterMap_cons] at h
    cases hd : lookupFirst bm d with
    | none =>
      rw [hd] at h
      obtain ⟨hmem, hlk⟩ := ih k v h
      exact ⟨List.mem_cons_of_mem _ hmem, hlk⟩
    | some ed =>
      rw [hd] at h
      simp only [Option.map] at h
      rw [lookupFirst_cons] at h
      by_cases hdk : d = k
      · rw [if_pos hdk] at h
        injection h with h2
        subst hdk
        subst h2
        exact ⟨List.mem_cons_self _ _, hd⟩
      · rw [if_neg hdk] at h
        obtain ⟨hmem, hlk⟩ := ih k v h
        exact ⟨List.mem_cons_of_mem _ hmem, hlk⟩

theorem subm_lookup_none (bm : List (Nat × Ele)) (kd : List Nat) (k : Nat)
    (hk : k ∉ kd) :
    lookupFirst (kd.filterMap
      (fun j => (lookupFirst bm j).map (fun e => (j, e)))) k = none := by
  rw [lookupFirst_eq_none_iff]
  intro p hp hpk
  have h1 : p.1 ∈ (kd.filterMap
      (fun j => (lookupFirst bm j).map (fun e => (j, e)))).map Prod.fst :=
    List.mem_map_of_mem _ hp
  have h2 : p.1 ∈ kd := (subm_keys_sublist bm kd).mem h1
  exact hk (hpk ▸ h2)

theorem subm_lookup_mem (bm : List (Nat × Ele)) :
    ∀ (kd : List Nat), kd.Nodup → ∀ k ∈ kd,
      lookupFirst (kd.filterMap
        (fun j => (lookupFirst bm j).map (fun e => (j, e)))) k =
      lookupFirst bm k := by
  intro kd
  induction kd with
  | nil => intro _ k hk; cases hk
  | cons d kd2 ih =>
    intro hnd k hk
    rw [List.nodup_cons] at hnd
    rw [List.filterMap_cons]
    rcases List.mem_cons.1 hk with rfl | hk2
    · cases hd : lookupFirst bm k with
      | none => exact subm_lookup_none bm kd2 k hnd.1
      | some ed =>
        simp only [Option.map]
        rw [lookupFirst_cons, if_pos rfl]
    · cases hd : lookupFirst bm d with
      | none => exact ih hnd.2 k hk2
      | some ed =>
        have hdk : d ≠ k := fun he => hnd.1 (he ▸ hk2)
        simp only [Option.map]
        rw [lookupFirst_cons, if_neg hdk]
        exact ih hnd.2 k hk2

theorem shape_congr_sub (subm bm : List (Nat × Ele))
    (hsb : ∀ k v, lookupFirst subm k = some v → lookupFirst bm k = some v)
    (hch : ∀ k v, lookupFirst subm k = some v → ∀ c ∈ v.children,
      lookupFirst subm c = lookupFirst bm c) :
    ∀ (f : Nat) {k0 : Nat} {s : BTree},
      buildShape subm f k0 = some s → buildShape bm f k0 = some s := by
  intro f
  induction f with
  | zero => intro k0 s h; cases h
  | succ fl ih =>
    intro k0 s h
    rw [buildShape_succ] at h
    split at h
    · cases h
    · next e heq =>
      cases hms : (((e.children.filterMap (fun c => lookupFirst subm c)).map
          Ele.id).mapM (buildShape subm fl)) with
      | none => rw [hms] at h; cases h
      | some shs =>
        rw [hms] at h
        rw [buildShape_succ, hsb k0 e heq]
        show (((e.children.filterMap (fun c => lookupFirst bm c)).map
            Ele.id).mapM (buildShape bm fl)).map (BTree.node k0) = some s
        have hLL : e.children.filterMap (fun c => lookupFirst bm c) =
            e.children.filterMap (fun c => lookupFirst subm c) :=
          List.filterMap_congr (fun c hc => (hch k0 e heq c hc).symm)
        rw [hLL]
        have hms2 : ((e.children.filterMap
            (fun c => lookupFirst subm c)).map Ele.id).mapM
              (buildShape bm fl) = some shs :=
          forall_mapM_some _
            (List.Forall₂.imp (fun _ _ hx => ih hx)
              (mapM_some_forall _ _ _ hms))
        rw [hms2]
        exact h

theorem rebuild_identity (em : List (Nat × Ele)) (f : Nat) (v0 : List Nat)
    (k0 : Nat) (T2 : BuiltTree) (s : BTree)
    (hids : ∀ p ∈ em, p.2.id = p.1)
    (hs : buildShape em f k0 = some s)
    (hsorted : (preorder s).Sorted (· ≤ ·))
    (hsnd : (preorder s).Nodup)
    (hbt : buildTree f em v0 k0 = some T2) :
    (∀ k v2, lookupFirst T2.eleMap k = some v2 →
      lookupFirst em k = some v2) ∧
    T2.eleMap.map Prod.fst = preorder s ∧
    T2.valid = v0.toFinset ∩ (preorder s).toFinset := by
  obtain ⟨sh0, emap2, rsh2, h1, h2, h3, hroot, hem, hval, hidx⟩ :=
    buildTree_inv hbt
  rw [hs] at h1
  injection h1 with h1e
  subst h1e
  have hsrt : srtOf s = preorder s := by
    unfold srtOf
    exact List.Sorted.insertionSort_eq hsorted
  have hpairs : pairsOf s = (preorder s).zip (preorder s) := by
    unfold pairsOf
    rw [hsrt]
  have hzk : (((preorder s).zip (preorder s)).map Prod.fst).Nodup := by
    rw [List.map_fst_zip _ _ (le_refl _)]
    exact hsnd
  have hixmem : ∀ k ∈ preorder s, ixOf s k = some k := by
    intro k hk
    unfold ixOf
    rw [hpairs, lookupLast_eq_lookupFirst hzk]
    exact lookupFirst_zip_self hsnd hk
  have hF2 := mapM_some_forall _ _ _ h2
  have hkeys2 : emap2.map Prod.fst = preorder s := by
    rw [emap_keys_eq em (ixOf s) hF2, pairsOf_map_snd, hsrt]
  have hentry : ∀ q ∈ emap2, lookupFirst em q.1 = some q.2 := by
    intro q hq
    obtain ⟨p, hpmem, hR⟩ := forall₂_mem_right hF2 hq
    obtain ⟨e, cs, he, hcs, hqe⟩ := remapOne_inv hR
    have hpz : p ∈ (preorder s).zip (preorder s) := by
      rw [← hpairs]
      exact hpmem
    have hp12 : p.2 = p.1 := mem_zip_self hpz
    have hFc := mapM_some_forall _ _ _ hcs
    have hcs_eq : cs = e.children := by
      refine forall₂_eq_of ?_ hFc
      intro a b hab
      unfold ixOf at hab
      have hpab : (a, b) ∈ pairsOf s := lookupLast_mem hab
      rw [hpairs] at hpab
      exact mem_zip_self hpab
    have heid : e.id = p.1 := hids (p.1, e) (lookupFirst_mem he)
    obtain ⟨eid, ech, esc, ety, etx⟩ := e
    have heid2 : eid = p.1 := heid
    subst heid2
    rw [hqe]
    show lookupFirst em p.2 =
      some { id := p.2, children := cs, scrollable := esc, ty := ety,
             text := etx }
    rw [hp12, hcs_eq]
    exact he
  refine ⟨?_, ?_, ?_⟩
  · intro k v2 hkv
    rw [hem] at hkv
    exact hentry (k, v2) (lookupFirst_mem hkv)
  · rw [hem, hkeys2]
  · rw [hval]
    unfold validOf
    ext x
    simp only [List.mem_toFinset, List.mem_filterMap, Finset.mem_inter]
    constructor
    · rintro ⟨a, ha, hax⟩
      unfold ixOf at hax
      have hp : (a, x) ∈ pairsOf s := lookupLast_mem hax
      rw [hpairs] at hp
      have hax2 : x = a := mem_zip_self hp
      have hal : a ∈ preorder s := by
        have h4 := List.mem_map_of_mem Prod.fst hp
        rwa [List.map_fst_zip _ _ (le_refl _)] at h4
      exact ⟨hax2 ▸ ha, hax2 ▸ hal⟩
    · rintro ⟨hxv, hxl⟩
      exact ⟨x, hxv, hixmem x hxl⟩

theorem extractSubtree_inv {f2 : Nat} {T : BuiltTree} {i : Nat}
    {T2 : BuiltTree} (h : extractSubtree f2 T i = some T2) :
    ∃ e0 keys, lookupFirst T.eleMap i = some e0 ∧
      collectReachable T.eleMap f2 [i] [] = some keys ∧
      buildTree f2
        (keys.dedup.filterMap
          (fun k => (lookupFirst T.eleMap k).map (fun e => (k, e))))
        (keys.dedup.filter (fun k => k ∈ T.valid)) i = some T2 := by
  unfold extractSubtree at h
  split at h
  · cases h
  · next e0 he0 =>
    split at h
    · cases h
    · next keys hkeys =>
      exact ⟨e0, keys, he0, hkeys, h⟩

/-- C6: `extract_subtree` on a canonically built tree is a pure frame
operation.  The second `_build_tree` run inside the extraction would
mutate the shared `EleAttr` records (`ele.id = idx`,
`ele.children[i] = idx_map[child]`), but on a tree built by
`ElementTree.__init__` the DFS pre-order already lists ids in ascending
order, so the re-derived canonical ids are the identity on the
reachable ids: every element of the extracted tree keeps exactly the
id, children and data it has in the original map (so the writes leave
the original unchanged), the new valid-id set is the intersection of
the new scope with the original valid-id set, and the requested root id
is in the new scope. -/
theorem C6_extract_frame (fuel f2 : Nat) (m : RawMap) (v : List Nat)
    (r i : Nat) (sh : BTree) (T T2 : BuiltTree)
    (hsh : buildShape m fuel r = some sh)
    (hnd : (preorder sh).Nodup)
    (hid : ∀ p ∈ m, p.2.id = p.1)
    (hT : buildTree fuel m v r = some T)
    (hT2 : extractSubtree f2 T i = some T2) :
    (∀ k v2, lookupFirst T2.eleMap k = some v2 →
      lookupFirst T.eleMap k = some v2) ∧
    T2.valid = (T2.eleMap.map Prod.fst).toFinset ∩ T.valid ∧
    i ∈ T2.eleMap.map Prod.fst := by
  obtain ⟨sh0, emap, rsh, h1, h2, h3, hroot, hem, hval, hidx⟩ :=
    buildTree_inv hT
  rw [hsh] at h1
  injection h1 with h1e
  subst h1e
  subst hem
  have hF := mapM_some_forall _ _ _ h2
  have hkeysT : T.eleMap.map Prod.fst = srtOf sh := by
    rw [emap_keys_eq m (ixOf sh) hF, pairsOf_map_snd]
  have hidT : ∀ p ∈ T.eleMap, p.2.id = p.1 := emap_id hF
  have hclT : ∀ q ∈ T.eleMap, ∀ c ∈ q.2.children,
      ∃ e2, lookupFirst T.eleMap c = some e2 :=
    fun q hq c hc =>
      lookupFirst_isSome_of_mem_keys (emap_closed hF q hq c hc)
  have hpnd : ((pairsOf sh).map Prod.fst).Nodup := by
    rw [pairsOf_map_fst]
    exact hnd
  obtain ⟨cs0, hcs0⟩ := buildShape_root hsh
  have hrmem : r ∈ preorder sh := by
    rw [hcs0]
    show r ∈ r :: preorderList cs0
    exact List.mem_cons_self _ _
  have hixr : ∃ nwr, ixOf sh r = some nwr := by
    unfold ixOf
    rw [lookupLast_eq_lookupFirst hpnd]
    exact lookupFirst_isSome_of_mem_keys
      (by rw [pairsOf_map_fst]; exact hrmem)
  obtain ⟨nwr, hixr⟩ := hixr
  obtain ⟨rsh2, hrel2, hbE⟩ :=
    build_relabel m sh T.eleMap fuel r hsh hnd hid hF fuel hsh hixr
  rw [h3] at hrel2
  injection hrel2 with hrel2e
  subst hrel2e
  have hpre_r : (preorder sh).mapM (ixOf sh) = some (preorder rsh) :=
    relabel_preorder _ sh rsh h3
  have hpre_s : (preorder sh).mapM (ixOf sh) = some (srtOf sh) :=
    ixOf_eq_srt hnd
  rw [hpre_s] at hpre_r
  injection hpre_r with hpre
  have hsorted_r : (preorder rsh).Sorted (· ≤ ·) := by
    rw [← hpre]
    exact List.sorted_insertionSort _ _
  have hnd_r : (preorder rsh).Nodup := by
    rw [← hpre]
    exact srtOf_nodup hnd
  obtain ⟨e0, keys, he0, hkeys, hbt2⟩ := extractSubtree_inv hT2
  obtain ⟨hstart, hclosure⟩ :=
    collectReachable_closed T.eleMap f2 i keys hkeys hclT
  obtain ⟨sh2, emap3, rsh3, g1, g2, g3, groot, gem, gval, gidx⟩ :=
    buildTree_inv hbt2
  subst gem
  have hsb : ∀ k v2,
      lookupFirst (keys.dedup.filterMap
        (fun k => (lookupFirst T.eleMap k).map (fun e => (k, e)))) k =
        some v2 →
      lookupFirst T.eleMap k = some v2 :=
    fun k v2 h => (subm_lookup_some T.eleMap keys.dedup k v2 h).2
  have hch : ∀ k v2,
      lookupFirst (keys.dedup.filterMap
        (fun k => (lookupFirst T.eleMap k).map (fun e => (k, e)))) k =
        some v2 →
      ∀ c ∈ v2.children,
        lookupFirst (keys.dedup.filterMap
          (fun k => (lookupFirst T.eleMap k).map (fun e => (k, e)))) c =
        lookupFirst T.eleMap c := by
    intro k v2 hkv c hc
    cases hsc : lookupFirst (keys.dedup.filterMap
        (fun k => (lookupFirst T.eleMap k).map (fun e => (k, e)))) c with
    | some w =>
      rw [hsb c w hsc]
    | none =>
      obtain ⟨hkd, hlkT⟩ := subm_lookup_some T.eleMap keys.dedup k v2 hkv
      have hkk : k ∈ keys := List.mem_dedup.1 hkd
      have hck : c ∈ keys := hclosure k hkk v2 hlkT c hc
      have h6 := subm_lookup_mem T.eleMap keys.dedup (List.nodup_dedup _)
        c (List.mem_dedup.2 hck)
      rw [hsc] at h6
      rw [← h6]
  have hshT : buildShape T.eleMap f2 i = some sh2 :=
    shape_congr_sub _ T.eleMap hsb hch f2 g1
  have himem : i ∈ preorder rsh := by
    have h8 : i ∈ T.eleMap.map Prod.fst :=
      List.mem_map_of_mem _ (lookupFirst_mem he0)
    rw [hkeysT, hpre] at h8
    exact h8
  obtain ⟨s2a, hs2a, hsub_pre⟩ :=
    buildShape_subtree T.eleMap fuel hbE i himem
  have hdet : s2a = sh2 := buildShape_det T.eleMap hs2a hshT
  rw [hdet] at hsub_pre
  have hsorted2 : (preorder sh2).Sorted (· ≤ ·) :=
    List.Pairwise.sublist hsub_pre hsorted_r
  have hnd2 : (preorder sh2).Nodup := List.Nodup.sublist hsub_pre hnd_r
  have hids_sub : ∀ p ∈ keys.dedup.filterMap
      (fun k => (lookupFirst T.eleMap k).map (fun e => (k, e))),
      p.2.id = p.1 := by
    intro p hp
    obtain ⟨k, hkmem, hpk⟩ := List.mem_filterMap.1 hp
    cases hlk : lookupFirst T.eleMap k with
    | none => rw [hlk] at hpk; cases hpk
    | some e =>
      rw [hlk] at hpk
      simp only [Option.map] at hpk
      injection hpk with h7
      subst h7
      exact hidT (k, e) (lookupFirst_mem hlk)
  obtain ⟨hagree0, hkeys0, hval0⟩ :=
    rebuild_identity _ f2 (keys.dedup.filter (fun k => k ∈ T.valid)) i
      T2 sh2 hids_sub g1 hsorted2 hnd2 hbt2
  refine ⟨fun k v2 h => hsb k v2 (hagree0 k v2 h), ?_, ?_⟩
  · rw [hval0, hkeys0]
    ext x
    simp only [Finset.mem_inter, List.mem_toFinset, List.mem_filter]
    constructor
    · rintro ⟨⟨hxd, hxv⟩, hxl⟩
      exact ⟨hxl, by simpa using hxv⟩
    · rintro ⟨hxl, hxv⟩
      obtain ⟨e, he⟩ := buildShape_preorder_keys _ f2 g1 x hxl
      have hxd : x ∈ keys.dedup :=
        (subm_lookup_some T.eleMap keys.dedup x e he).1
      exact ⟨⟨hxd, by simpa using hxv⟩, hxl⟩
  · rw [hkeys0]
    obtain ⟨cs2, hc2⟩ := buildShape_root g1
    rw [hc2]
    show i ∈ i :: preorderList cs2
    exact List.mem_cons_self _ _

/-- C1 (amended): `_build_tree` does not give each node an id fixed by
that node alone; `zip(valid_node_ids, dfs_order)` assigns the k-th
smallest reachable original id as the new id of the node at DFS
position k.  Position-wise along the DFS pre-order, each node keeps its
text but its new id is the k-th element of the ascending sort of all
reachable ids (`idx_map` is exactly that zip); and the result does not
depend on the storage order of the raw element map: lookup-equivalent
maps build the same tree. -/
theorem C1_id_assignment (fuel : Nat) (m : RawMap) (v : List Nat) (r : Nat)
    (sh : BTree) (T : BuiltTree)
    (hsh : buildShape m fuel r = some sh)
    (hnd : (preorder sh).Nodup)
    (hT : buildTree fuel m v r = some T) :
    (T.idxPairs = (preorder sh).zip (srtOf sh) ∧
      List.Forall₂ (fun o nw => ∃ e e2, lookupFirst m o = some e ∧
          lookupFirst T.eleMap nw = some e2 ∧ e2.text = e.text ∧ e2.id = nw)
        (preorder sh) (srtOf sh)) ∧
    (∀ m2 : RawMap, (∀ k, lookupFirst m2 k = lookupFirst m k) →
      buildTree fuel m2 v r = buildTree fuel m v r) := by
  obtain ⟨sh0, emap, rsh, h1, h2, h3, hroot, hem, hval, hidx⟩ :=
    buildTree_inv hT
  rw [hsh] at h1
  injection h1 with h1e
  subst h1e
  refine ⟨⟨by rw [hidx]; rfl, ?_⟩, fun m2 hm => buildTree_congr fuel m m2 v r hm⟩
  have hF := mapM_some_forall _ _ _ h2
  have hkeys : emap.map Prod.fst = srtOf sh := by
    rw [emap_keys_eq m (ixOf sh) hF, pairsOf_map_snd]
  have hknd : (emap.map Prod.fst).Nodup := by
    rw [hkeys]; exact srtOf_nodup hnd
  have hlenPE : (pairsOf sh).length = emap.length := hF.length_eq
  rw [List.forall₂_iff_zip]
  refine ⟨(srtOf_length sh).symm, ?_⟩
  intro o nw hmem
  have hmemP : (o, nw) ∈ pairsOf sh := hmem
  obtain ⟨i, hip⟩ := List.mem_iff_get.1 hmemP
  have hie : i.1 < emap.length := hlenPE ▸ i.2
  have hR := forall₂_get hF i.1 i.2 hie
  rw [hip] at hR
  obtain ⟨e, cs, he, hcs, hq⟩ := remapOne_inv hR
  have hqmem : emap.get ⟨i.1, hie⟩ ∈ emap := List.get_mem emap i.1 hie
  have hlu : lookupFirst emap (emap.get ⟨i.1, hie⟩).1 =
      some (emap.get ⟨i.1, hie⟩).2 :=
    lookupFirst_of_mem_nodup hknd hqmem
  rw [hq] at hlu
  refine ⟨e, { id := nw, children := cs, scrollable := e.scrollable,
               ty := e.ty, text := e.text }, he, ?_, rfl, rfl⟩
  rw [hem]
  exact hlu

/-- Witness for C1 at the concrete three-node map whose sibling order
disagrees with the numeric id order. -/
theorem C1_witness :
    List.Forall₂ (fun o nw => ∃ e e2, lookupFirst c1m o = some e ∧
        lookupFirst c1T.eleMap nw = some e2 ∧ e2.text = e.text ∧ e2.id = nw)
      (preorder c1sh) (srtOf c1sh) :=
  ((C1_id_assignment 9 c1m [1, 2] 0 c1sh c1T (by decide) (by decide)
      (by decide)).1).2

/-- Counterexample to the literal C1 reading: in `c1m` the root lists
its children as [2, 1], so the node with original id 2 sits at DFS
position 1 and receives new id 1, which is not the rank of 2 among the
reachable ids. -/
theorem C1_counterexample :
    buildShape c1m 9 0 = some c1sh ∧
    buildTree 9 c1m [1, 2] 0 = some c1T ∧
    ¬ (∀ p ∈ c1T.idxPairs, p.2 = rankOf p.1 (preorder c1sh)) := by
  decide

/-- Witness for C6: extracting the subtree rooted at 0 from the built
three-node tree keeps the intersection property at concrete values. -/
theorem C6_witness :
    c6T2.valid = (c6T2.eleMap.map Prod.fst).toFinset ∩ c1T.valid :=
  (C6_extract_frame 9 9 c1m [1, 2] 0 0 c1sh c1T c6T2 (by decide) (by decide)
    (by decide) (by decide) (by decide)).2.1

end CodeExec
